import Mathlib

/-!
# Verification of `prism-dictation`

A shallow embedding of the core of `prism-dictation.py`:

* the words-to-digits parser (`from_words_to_digits`):
  dictionary construction, whole-value evaluation, the two phrase
  delimiters, the in-place rewriting pass with arithmetic fusion, and
  the digit-pair grouping pass with the minimum-value revert;
* the text post-processor `process_text`;
* the progressive-emission diffing of `handle_fn_wrapper`;
* the exit decision `exit_fn` together with `use_overtime`.

Python strings are modelled as Lean `String`s (or `List Char` where
character-level reasoning is needed); Python ints occurring here are all
non-negative and are modelled as `Nat`; wall-clock times are modelled as
`ℚ`.  Loops whose index can move backwards are given an explicit fuel
parameter and return `Option`, with `none` meaning the fuel ran out;
loops whose index strictly increases are run with exactly the fuel they
need, which makes them total.
-/

namespace Prism

/-! ## Small string utilities shared by the embedding -/

/-- ASCII rendering of a non-negative integer, digit by digit
(`"{:d}".format`). The fuel is always sufficient since `n / 10 < n`. -/
def natToDigits : Nat → Nat → List Char
  | 0, _ => []
  | fuel + 1, n =>
    if n < 10 then [Nat.digitChar n]
    else natToDigits fuel (n / 10) ++ [Nat.digitChar (n % 10)]

/-- Decimal string of a `Nat` (`"{:d}".format(n)` for `n ≥ 0`). -/
def fmtNat (n : Nat) : String :=
  String.mk (natToDigits (n + 1) n)

/-- Value of a decimal digit character. -/
def digitVal (c : Char) : Nat := c.toNat - '0'.toNat

/-- Decimal value of a digit string (`int(s)` on a string of digits). -/
def strToNat (s : String) : Nat :=
  s.data.foldl (fun acc c => acc * 10 + digitVal c) 0

/-- `str.isdigit` restricted to ASCII: non-empty and all characters
are decimal digits. -/
def pyIsDigit (s : String) : Bool :=
  !s.data.isEmpty && s.data.all Char.isDigit

/-- Split a reversed digit list into comma-separated groups of three,
working from the least significant digit. -/
def groupRevDigits : Nat → List Char → List Char
  | _, [] => []
  | k, c :: cs =>
    if k = 0 then ',' :: c :: groupRevDigits 2 cs
    else c :: groupRevDigits (k - 1) cs

/-- Thousands-separator rendering of a `Nat` (`"{:,d}".format(n)`). -/
def fmtNatSep (n : Nat) : String :=
  String.mk (List.reverse (groupRevDigits 3 (List.reverse (natToDigits (n + 1) n))))

/-- Python slice `l[a:b]` (for `a ≤ b`; both ends clamped to the list). -/
def pySlice (l : List String) (a b : Nat) : List String :=
  (l.drop a).take (b - a)

/-- Python slice assignment `l[a:b] = new` for `a ≤ b`, both ends
clamped: everything before `a`, then `new`, then everything from `b`. -/
def pySpliceAssign (l : List String) (a b : Nat) (new : List String) : List String :=
  l.take a ++ new ++ l.drop b

namespace fwtd

/-! ## `from_words_to_digits_setup_once`

The tables below are transcribed from the source; an entry of the
dictionary is `(scale, increment, suffix, is_final)`. -/

/-- One dictionary payload: `(scale, increment, suffix_string, is_terminal)`. -/
abbrev Entry := Nat × Nat × String × Bool

/-- The `units` table: row index is the increment. -/
def units : List (List (String × String)) :=
  [ [("zero", ""), ("zeroes", "'s"), ("zeroth", "th")]
  , [("one", ""), ("ones", "'s"), ("first", "st")]
  , [("two", ""), ("twos", "'s"), ("second", "nd")]
  , [("three", ""), ("threes", "'s"), ("third", "rd")]
  , [("four", ""), ("fours", "'s"), ("fourth", "th")]
  , [("five", ""), ("fives", "'s"), ("fifth", "th")]
  , [("six", ""), ("sixes", "'s"), ("sixth", "th")]
  , [("seven", ""), ("sevens", "'s"), ("seventh", "th")]
  , [("eight", ""), ("eights", "'s"), ("eighth", "th")]
  , [("nine", ""), ("nines", "'s"), ("ninth", "th")]
  , [("ten", ""), ("tens", "'s"), ("tenth", "th")]
  , [("eleven", ""), ("elevens", "'s"), ("eleventh", "th")]
  , [("twelve", ""), ("twelves", "'s"), ("twelfth", "th")]
  , [("thirteen", ""), ("thirteens", "'s"), ("thirteenth", "th")]
  , [("fourteen", ""), ("fourteens", "'s"), ("fourteenth", "th")]
  , [("fifteen", ""), ("fifteens", "'s"), ("fifteenth", "th")]
  , [("sixteen", ""), ("sixteens", "'s"), ("sixteenth", "th")]
  , [("seventeen", ""), ("seventeens", "'s"), ("seventeenth", "th")]
  , [("eighteen", ""), ("eighteens", "'s"), ("eighteenth", "th")]
  , [("nineteen", ""), ("nineteens", "'s"), ("nineteenth", "th")] ]

/-- The `units_tens` table: row index times ten is the increment. -/
def unitsTens : List (List (String × String)) :=
  [ [("", ""), ("", ""), ("", "")]
  , [("", ""), ("", ""), ("", "")]
  , [("twenty", ""), ("twenties", "'s"), ("twentieth", "th")]
  , [("thirty", ""), ("thirties", "'s"), ("thirtieth", "th")]
  , [("forty", ""), ("forties", "'s"), ("fortieth", "th")]
  , [("fifty", ""), ("fifties", "'s"), ("fiftieth", "th")]
  , [("sixty", ""), ("sixties", "'s"), ("sixtieth", "th")]
  , [("seventy", ""), ("seventies", "'s"), ("seventieth", "th")]
  , [("eighty", ""), ("eighties", "'s"), ("eightieth", "th")]
  , [("ninety", ""), ("nineties", "'s"), ("ninetieth", "th")] ]

/-- The `scales` table, each with its power of ten. -/
def scales : List (List (String × String) × Nat) :=
  [ ([("hundred", ""), ("hundreds", "s"), ("hundredth", "th")], 2)
  , ([("thousand", ""), ("thousands", "s"), ("thousandth", "th")], 3)
  , ([("million", ""), ("millions", "s"), ("millionth", "th")], 6)
  , ([("billion", ""), ("billions", "s"), ("billionth", "th")], 9)
  , ([("trillion", ""), ("trillions", "s"), ("trillionth", "th")], 12)
  , ([("quadrillion", ""), ("quadrillions", "s"), ("quadrillionth", "th")], 15)
  , ([("quintillion", ""), ("quintillions", "s"), ("quintillionth", "th")], 18)
  , ([("sextillion", ""), ("sextillions", "s"), ("sextillionth", "th")], 21)
  , ([("septillion", ""), ("septillions", "s"), ("septillionth", "th")], 24)
  , ([("octillion", ""), ("octillions", "s"), ("octillionth", "th")], 27)
  , ([("nonillion", ""), ("nonillions", "s"), ("nonillionth", "th")], 30)
  , ([("decillion", ""), ("decillions", "s"), ("decillionth", "th")], 33)
  , ([("undecillion", ""), ("undecillions", "s"), ("undecillionth", "th")], 36)
  , ([("duodecillion", ""), ("duodecillions", "s"), ("duodecillionth", "th")], 39)
  , ([("tredecillion", ""), ("tredecillions", "s"), ("tredecillionth", "th")], 42)
  , ([("quattuordecillion", ""), ("quattuordecillions", "s"), ("quattuordecillionth", "th")], 45)
  , ([("quindecillion", ""), ("quindecillions", "s"), ("quindecillionth", "th")], 48)
  , ([("sexdecillion", ""), ("sexdecillions", "s"), ("sexdecillionth", "th")], 51)
  , ([("septendecillion", ""), ("septendecillions", "s"), ("septendecillionth", "th")], 54)
  , ([("octodecillion", ""), ("octodecillions", "s"), ("octodecillionth", "th")], 57)
  , ([("novemdecillion", ""), ("novemdecillions", "s"), ("novemdecillionth", "th")], 60)
  , ([("vigintillion", ""), ("vigintillions", "s"), ("vigintillionth", "th")], 63)
  , ([("centillion", ""), ("centillions", "s"), ("centillionth", "th")], 303) ]

/-- The `number_words` dictionary writes in insertion order: `"and"`
first, then units, tens, and scales.  Later writes overwrite earlier
ones, matching Python `dict` assignment. -/
def insertions : List (String × Entry) :=
  ("and", (1, 0, "", false)) ::
  (units.enum.flatMap fun p =>
    p.2.map fun wp => (wp.1, ((1 : Nat), p.1, wp.2, true))) ++
  (unitsTens.enum.flatMap fun p =>
    p.2.map fun wp => (wp.1, ((1 : Nat), p.1 * 10, wp.2, true))) ++
  (scales.flatMap fun p =>
    p.1.map fun wp => (wp.1, ((10 : Nat) ^ p.2, (0 : Nat), wp.2, true)))

/-- `number_words.get(w)`: the last insertion wins. -/
def numberWords (w : String) : Option Entry :=
  (insertions.reverse.find? fun e => e.1 == w).map (·.2)

/-- `w in number_words`. -/
def inNumberWords (w : String) : Bool :=
  (numberWords w).isSome

/-- `valid_digit_words`: every dictionary key except `"and"` and `""`. -/
def validDigitWord (w : String) : Bool :=
  inNumberWords w && w != "and" && w != ""

/-- `valid_unit_words`: every word of the `units` and `units_tens`
tables (this includes the empty string from the two blank tens rows). -/
def validUnitWords : List String :=
  (units ++ unitsTens).flatMap fun row => row.map (·.1)

/-- `w in valid_unit_words`. -/
def validUnitWord (w : String) : Bool := validUnitWords.contains w

/-- `valid_scale_words`: every word of the `scales` table. -/
def validScaleWords : List String :=
  scales.flatMap fun p => p.1.map (·.1)

/-- `w in valid_scale_words`. -/
def validScaleWord (w : String) : Bool := validScaleWords.contains w

/-- `valid_zero_words`: the words of row zero of `units`. -/
def validZeroWords : List String :=
  (units.headD []).map (·.1)

/-- `w in valid_zero_words`. -/
def validZeroWord (w : String) : Bool := validZeroWords.contains w

/-! ## `_parse_number_as_whole_value`

The loop state mirrors the Python local variables.  `wif` is
`word_index_final`, with `none` playing the role of `-1`; `resFin` is
`result_final`; `ifr` is `increment_final_real`.  The caller passes
`fuel = limit - idx`, which is exactly the number of iterations the
loop can make since `word_index` increases by one per iteration. -/

/-- Result quadruple `(decimal_string, suffix, end_index, allow_reformat)`. -/
abbrev ParseRes := String × String × Nat × Bool

/-- The value returned when the loop stops: `result_final` if the last
word seen was not terminal, otherwise the accumulated value. -/
def wholeFinish (current result : Nat) (suffix : String) (isFinal : Bool)
    (idx : Nat) (resFin : ParseRes) : ParseRes :=
  if !isFinal then resFin
  else (fmtNat (result + current), suffix, idx, true)

/-- One faithful rendering of the `while` loop of
`_parse_number_as_whole_value`.  `allow_reformat` is the constant
`true`: the source initialises it and never assigns it again. -/
def wholeLoop (ws : List String) (limit : Nat) (imp force : Bool) :
    Nat → Nat → Nat → Nat → String → Bool → Nat → Nat → Option Nat → Bool →
    ParseRes → ParseRes
  | 0, idx, current, result, suffix, isFinal, _, _, _, _, resFin =>
    wholeFinish current result suffix isFinal idx resFin
  | fuel + 1, idx, current, result, suffix, isFinal, ifr, scaleFinal, wif,
    onlyScale, resFin =>
    if idx < limit then
      let w := ws.getD idx ""
      match numberWords w with
      | none => wholeFinish current result suffix isFinal idx resFin
      | some (scale, increment0, wSfx, wFin) =>
        -- "zero" terminates a number already under way.
        if wif.isSome && validZeroWord w then
          wholeFinish current result suffix isFinal idx resFin
        else
          let incrementReal := increment0
          let increment := if force && increment0 != 0 then 1 else increment0
          -- "three and two" must not resolve to "5"; incompatible unit
          -- pairs such as "twenty twelve" must not combine.
          if wif.isSome && !wFin &&
              validUnitWord (ws.getD (wif.getD 0 - 1) "") then
            wholeFinish current result wSfx wFin idx resFin
          else if wif.isSome && scaleFinal == scale &&
              validUnitWord w && validUnitWord (ws.getD (wif.getD 0) "") &&
              !(ifr ≥ 20 && incrementReal < 10) then
            wholeFinish current result wSfx wFin idx resFin
          else
            let onlyScale' := if imp && onlyScale && !validScaleWord w
              then false else onlyScale
            if imp && onlyScale' && current == 0 && result == 0 then
              -- implied single unit: a bare leading scale word.
              wholeFinish (1 * scale) result wSfx wFin (idx + 1) resFin
            else
              let current1 := current * scale + increment
              let result1 := if scale > 100 then result + current1 else result
              let current2 := if scale > 100 then 0 else current1
              let idx1 := idx + 1
              let resFin1 := if wFin
                then (fmtNat (result1 + current2), wSfx, idx1, true)
                else resFin
              let wif1 := if wFin then some idx1 else wif
              let scaleFinal1 := if wFin then scale else scaleFinal
              let ifr1 := if wFin then incrementReal else ifr
              if wSfx != "" then
                wholeFinish current2 result1 wSfx wFin idx1 resFin1
              else
                wholeLoop ws limit imp force fuel idx1 current2 result1
                  wSfx wFin ifr1 scaleFinal1 wif1 onlyScale' resFin1
    else
      wholeFinish current result suffix isFinal idx resFin

/-- `_parse_number_as_whole_value(word_list, word_list_len, word_index,
imply_single_unit, force_single_units)`. -/
def parseNumberAsWholeValue (ws : List String) (limit idx : Nat)
    (imp : Bool := false) (force : Bool := false) : ParseRes :=
  wholeLoop ws limit imp force (limit - idx) idx 0 0 "" false 0 0 none true
    ("", "", idx, true)

/-- `_allow_follow_on_word`. -/
def allowFollowOnWord (wPrev w : String) : Bool :=
  if !validUnitWord wPrev then false
  else if !validUnitWord w then false
  else
    let incrementPrev := ((numberWords wPrev).getD (1, 0, "", false)).2.1
    let increment := ((numberWords w).getD (1, 0, "", false)).2.1
    incrementPrev ≥ 20 && increment < 10 && increment != 0

/-! ## The two phrase delimiters -/

/-- Code run when the series scan stops at index `i`: one more
provisional parse, then compare widths with the previous segment. -/
def seriesFinish (ws : List String) (wordIndexLen iSpanBeg i : Nat)
    (resultTest : Option ParseRes) : Nat :=
  let resultPrev := resultTest
  let resultTest := parseNumberAsWholeValue ws i iSpanBeg false true
  match resultPrev with
  | some rp => if rp.1.length == resultTest.1.length then rp.2.2.1 else wordIndexLen
  | none => wordIndexLen

/-- The loop of `parse_number_calc_delimiter_from_series`.  The caller
passes `fuel = word_index_len - word_index`, exactly the number of
iterations, since `i` increases by one per iteration. -/
def seriesLoop (ws : List String) (wordIndex wordIndexLen : Nat) :
    Nat → Nat → Nat → String → Option ParseRes → Option ParseRes → Nat
  | 0, i, iSpanBeg, _, _, resultTest =>
    seriesFinish ws wordIndexLen iSpanBeg i resultTest
  | fuel + 1, i, iSpanBeg, wPrev, resultPrev, resultTest =>
    if i < wordIndexLen then
      let w := ws.getD i ""
      if !inNumberWords w then
        seriesFinish ws wordIndexLen iSpanBeg i resultTest
      else if i != wordIndex && allowFollowOnWord (ws.getD (i - 1) "") w then
        seriesLoop ws wordIndex wordIndexLen fuel (i + 1) iSpanBeg wPrev
          resultPrev resultTest
      else if !(wPrev == "" || wPrev == "and") && validUnitWord w then
        let rp := resultTest
        let rt := parseNumberAsWholeValue ws i iSpanBeg false true
        if rt.2.2.1 == i &&
            (match rp with
             | some p => p.1.length == rt.1.length
             | none => false) then
          (rp.getD ("", "", 0, true)).2.2.1
        else
          seriesLoop ws wordIndex wordIndexLen fuel (i + 1) i w rp (some rt)
      else
        seriesLoop ws wordIndex wordIndexLen fuel (i + 1) iSpanBeg w
          resultPrev resultTest
    else
      seriesFinish ws wordIndexLen iSpanBeg i resultTest

/-- `parse_number_calc_delimiter_from_series`. -/
def parseNumberCalcDelimiterFromSeries (ws : List String)
    (wordIndex wordIndexLen : Nat) : Nat :=
  seriesLoop ws wordIndex wordIndexLen (wordIndexLen - wordIndex) wordIndex
    wordIndex "" none none

/-- The loop of `parse_number_calc_delimiter_from_slide`; fuel as for
the series loop. -/
def slideLoop (ws : List String) (wordIndex wordIndexLen : Nat) :
    Nat → Nat → String → Nat
  | 0, _, _ => wordIndexLen
  | fuel + 1, i, wPrev =>
    if i < wordIndexLen then
      let w := ws.getD i ""
      if !inNumberWords w then wordIndexLen
      else if i != wordIndex && allowFollowOnWord (ws.getD (i - 1) "") w then
        slideLoop ws wordIndex wordIndexLen fuel (i + 1) wPrev
      else if !(wPrev == "" || wPrev == "and") && validUnitWord w then
        let lhs := parseNumberAsWholeValue ws i wordIndex false true
        let rhs := parseNumberAsWholeValue ws wordIndexLen i false true
        if lhs.1.length ≤ rhs.1.length then lhs.2.2.1
        else slideLoop ws wordIndex wordIndexLen fuel (i + 1) w
      else slideLoop ws wordIndex wordIndexLen fuel (i + 1) w
    else wordIndexLen

/-- `parse_number_calc_delimiter_from_slide`. -/
def parseNumberCalcDelimiterFromSlide (ws : List String)
    (wordIndex wordIndexLen : Nat) : Nat :=
  slideLoop ws wordIndex wordIndexLen (wordIndexLen - wordIndex) wordIndex ""

/-- `parse_number`: delimit with both scans, then evaluate the span. -/
def parseNumber (ws : List String) (idx : Nat) (imp : Bool := false) : ParseRes :=
  let len0 := ws.length
  let len1 := parseNumberCalcDelimiterFromSeries ws idx len0
  let len2 := parseNumberCalcDelimiterFromSlide ws idx len1
  parseNumberAsWholeValue ws len2 idx imp false

/-! ## `parse_numbers_in_word_list` -/

/-- The recognized connective phrases between two freshly parsed
numbers, with the string spliced in between when fusing. -/
def connectiveJoin (between : List String) : Option String :=
  if between == ["point"] then some "."
  else if between == ["minus"] then some " - "
  else if between == ["plus"] then some " + "
  else if between == ["divided", "by"] then some " / "
  else if between == ["multiplied", "by"] || between == ["times"] then some " * "
  else if between == ["modulo"] then some " % "
  else none

/-- Pass 1: rewrite number phrases in place, fusing across arithmetic
connectives.  `pPrev` is `i_number_prev`, with `none` for `-1`.  The
index can move backwards after a fusion, so the loop runs on fuel and
returns `none` when the fuel runs out. -/
def pass1Loop (useSep noSuffix : Bool) :
    Nat → List String → Nat → Option Nat → Option (List String)
  | 0, _, _, _ => none
  | fuel + 1, ws, i, pPrev =>
    if i < ws.length then
      if validDigitWord (ws.getD i "") then
        let r := parseNumber ws i true
        let number := r.1
        let suffix := r.2.1
        let iNext := r.2.2.1
        let allowRe := r.2.2.2
        if i != iNext then
          if noSuffix && suffix != "" then
            pass1Loop useSep noSuffix fuel ws (i + 1) pPrev
          else
            let tok := (if useSep && allowRe then fmtNatSep (strToNat number)
              else number) ++ suffix
            let ws1 := pySpliceAssign ws i iNext [tok]
            match pPrev with
            | some p =>
              if p + 1 != i then
                match connectiveJoin (pySlice ws1 (p + 1) i) with
                | some sep =>
                  let fused := ws1.getD p "" ++ sep ++ ws1.getD i ""
                  let ws2 := pySpliceAssign ws1 p (i + 1) [fused]
                  pass1Loop useSep noSuffix fuel ws2 p (some p)
                | none => pass1Loop useSep noSuffix fuel ws1 i (some i)
              else pass1Loop useSep noSuffix fuel ws1 i (some i)
            | none => pass1Loop useSep noSuffix fuel ws1 i (some i)
        else pass1Loop useSep noSuffix fuel ws (i + 1) pPrev
      else pass1Loop useSep noSuffix fuel ws (i + 1) pPrev
    else some ws

/-- The inner scan of pass 2: extend `j` over short digit tokens.  The
caller passes `fuel = ws.length - j`, exactly the iterations needed. -/
def scanJ (ws : List String) : Nat → Nat → Nat
  | 0, j => j
  | fuel + 1, j =>
    if j < ws.length then
      if pyIsDigit (ws.getD j "") && (ws.getD j "").length ≤ 2 then
        scanJ ws fuel (j + 1)
      else j
    else j

/-- Pass 2: group adjacent short digit tokens, and when a configured
minimum value is not reached, splice the prior-copy back in. -/
def pass2Loop (minValue : Option Nat) :
    Nat → List String → List String → Nat → Option (List String)
  | 0, _, _, _ => none
  | fuel + 1, ws, orig, i =>
    if i < ws.length then
      if pyIsDigit (ws.getD i "") && (ws.getD i "").length ≤ 2 then
        let j := scanJ ws (ws.length - (i + 1)) (i + 1)
        let joined := i + 1 != j
        let ws1 := if joined then
          pySpliceAssign ws i j [String.join (pySlice ws i j)] else ws
        let orig1 := if joined then
          pySpliceAssign orig i j [String.join (pySlice orig i j)] else orig
        let ws2 := match minValue with
          | some m =>
            if strToNat (ws1.getD i "") < m then
              pySpliceAssign ws1 i j (pySlice orig1 i j)
            else ws1
          | none => ws1
        pass2Loop minValue fuel ws2 orig1 j
      else pass2Loop minValue fuel ws orig (i + 1)
    else some ws

/-- `parse_numbers_in_word_list`: pass 1 then pass 2, with the
prior-copy `orig_word_list` taken before pass 1. -/
def parseNumbersInWordList (fuel : Nat) (ws : List String)
    (numbersUseSeparator : Bool := false)
    (numbersMinValue : Option Nat := none)
    (numbersNoSuffix : Bool := false) : Option (List String) :=
  (pass1Loop numbersUseSeparator numbersNoSuffix fuel ws 0 none).bind fun ws1 =>
    pass2Loop numbersMinValue fuel ws1 ws 0

end fwtd

/-! ## `process_text` -/

/-- `text.replace("\n", " ")`: a single-character replacement is a
character-wise map. -/
def replaceNL (s : List Char) : List Char :=
  s.map fun c => if c = '\n' then ' ' else c

/-- `text.split(" ")`: split on every single space, keeping empties. -/
def splitChar (sep : Char) : List Char → List (List Char)
  | [] => [[]]
  | c :: cs =>
    match splitChar sep cs with
    | [] => [[c]]
    | h :: t => if c = sep then [] :: h :: t else (c :: h) :: t

/-- ASCII uppercase of one character (non-letters unchanged). -/
def asciiUpper (c : Char) : Char :=
  match c with
  | 'a' => 'A' | 'b' => 'B' | 'c' => 'C' | 'd' => 'D' | 'e' => 'E'
  | 'f' => 'F' | 'g' => 'G' | 'h' => 'H' | 'i' => 'I' | 'j' => 'J'
  | 'k' => 'K' | 'l' => 'L' | 'm' => 'M' | 'n' => 'N' | 'o' => 'O'
  | 'p' => 'P' | 'q' => 'Q' | 'r' => 'R' | 's' => 'S' | 't' => 'T'
  | 'u' => 'U' | 'v' => 'V' | 'w' => 'W' | 'x' => 'X' | 'y' => 'Y'
  | 'z' => 'Z' | _ => c

/-- ASCII lowercase of one character (non-letters unchanged). -/
def asciiLower (c : Char) : Char :=
  match c with
  | 'A' => 'a' | 'B' => 'b' | 'C' => 'c' | 'D' => 'd' | 'E' => 'e'
  | 'F' => 'f' | 'G' => 'g' | 'H' => 'h' | 'I' => 'i' | 'J' => 'j'
  | 'K' => 'k' | 'L' => 'l' | 'M' => 'm' | 'N' => 'n' | 'O' => 'o'
  | 'P' => 'p' | 'Q' => 'q' | 'R' => 'r' | 'S' => 's' | 'T' => 't'
  | 'U' => 'u' | 'V' => 'v' | 'W' => 'w' | 'X' => 'x' | 'Y' => 'y'
  | 'Z' => 'z' | _ => c

/-- `str.capitalize` (ASCII): first character uppercased, the rest
lowercased. -/
def pyCapitalize (w : String) : String :=
  match w.data with
  | [] => ""
  | c :: cs => String.mk (asciiUpper c :: cs.map asciiLower)

/-- `words[0] = words[0].capitalize()`; the source also performs the
no-op `words[-1] = words[-1]`, which leaves the last token unchanged. -/
def capitalizeFirst : List String → List String
  | [] => []
  | w :: rest => pyCapitalize w :: rest

/-- `" ".join(words)`. -/
def joinSpaceStr (words : List String) : String :=
  String.mk (List.intercalate [' '] (words.map String.data))

/-- `process_text`: strip newlines, split, optionally rewrite numbers,
optionally capitalize the first token, re-join.  `none` only when the
number-parser fuel runs out. -/
def processText (fuel : Nat) (text : String) (fullSentence : Bool := false)
    (numbersAsDigits : Bool := false) (numbersUseSeparator : Bool := false)
    (numbersMinValue : Option Nat := none) (numbersNoSuffix : Bool := false) :
    Option String :=
  let words := (splitChar ' ' (replaceNL text.data)).map String.mk
  (if numbersAsDigits then
    fwtd.parseNumbersInWordList fuel words numbersUseSeparator numbersMinValue
      numbersNoSuffix
  else some words).map fun words1 =>
    joinSpaceStr (if fullSentence then capitalizeFirst words1 else words1)

end Prism

namespace Engine

/-! ## `handle_fn_wrapper`

Hypothesis texts are modelled as `List Char`; the post-processing
closure `process_fn` is an arbitrary function parameter `post`. -/

/-- `" ".join` on character lists. -/
def joinSpaceL (l : List (List Char)) : List Char :=
  List.intercalate [' '] l

/-- The common-prefix scan of `handle_fn_wrapper`:
`match = min(len(curr), len(prev))`, then the first index where the
strings differ, if any, becomes `match`.  `fuel = m - i` at each call. -/
def matchIdxGo (curr prev : List Char) (m : Nat) : Nat → Nat → Nat
  | 0, _ => m
  | fuel + 1, i =>
    if i < m then
      if curr.getD i 'a' != prev.getD i 'a' then i
      else matchIdxGo curr prev m fuel (i + 1)
    else m

/-- Index of the first mismatch between the two texts. -/
def matchIdx (curr prev : List Char) : Nat :=
  let m := min curr.length prev.length
  matchIdxGo curr prev m m 0

/-- Length of the longest common prefix: the specification-side
description of `matchIdx`. -/
def lcpLen : List Char → List Char → Nat
  | a :: as, b :: bs => if a = b then lcpLen as bs + 1 else 0
  | _, _ => 0

/-- The engine state captured by `handle_fn_wrapper`'s closure:
`text_list`, `text_prev`, `handled_any`. -/
structure EngSt where
  textList : List (List Char)
  textPrev : List Char
  handledAny : Bool
  deriving Repr, DecidableEq

/-- Initial engine state. -/
def initSt : EngSt := ⟨[], [], false⟩

/-- One call of `handle_fn_wrapper(text, is_partial)`: the new state
and the list (empty or a singleton) of `(delete_n, insert)` edits
passed to `handle_fn`. -/
def handleStep (progressive progressiveContinuous : Bool)
    (post : List Char → List Char) (s : EngSt) (text : List Char)
    (isPartial : Bool) : EngSt × List (Nat × List Char) :=
  if !progressive then
    if isPartial then (s, [])
    else ({ s with textList := s.textList ++ [text], handledAny := true }, [])
  else
    let textCurr := if progressiveContinuous then post text
      else post (joinSpaceL (s.textList ++ [text]))
    let (textPrev1, edits) :=
      if textCurr ≠ s.textPrev then
        let m := matchIdx textCurr s.textPrev
        (textCurr, [(s.textPrev.length - m, textCurr.drop m)])
      else (s.textPrev, [])
    if !isPartial then
      if progressiveContinuous then
        (⟨s.textList, [], true⟩, edits)
      else
        (⟨s.textList ++ [text], textPrev1, true⟩, edits)
    else
      (⟨s.textList, textPrev1, true⟩, edits)

/-- Run a sequence of `(text, is_partial)` hypotheses through
`handle_fn_wrapper`, collecting every emitted edit in order. -/
def runSteps (progressive progressiveContinuous : Bool)
    (post : List Char → List Char) :
    EngSt → List (List Char × Bool) → EngSt × List (Nat × List Char)
  | s, [] => (s, [])
  | s, e :: es =>
    let (s1, ed) := handleStep progressive progressiveContinuous post s e.1 e.2
    let (s2, eds) := runSteps progressive progressiveContinuous post s1 es
    (s2, ed ++ eds)

/-- Typing-sink semantics of one `(delete_n, insert)` edit: delete
`delete_n` characters from the end, then append. -/
def applyEdit (buf : List Char) (e : Nat × List Char) : List Char :=
  buf.take (buf.length - e.1) ++ e.2

/-- Apply a stream of edits in order. -/
def applyEdits (buf : List Char) (es : List (Nat × List Char)) : List Char :=
  es.foldl applyEdit buf

end Engine

namespace ExitCtl

/-! ## `exit_fn` and `use_overtime`

Wall-clock instants are modelled as rationals; `file_mtime_or_none`
is an `Option ℚ`; the exit code is `-1` (cancel), `0` (continue) or
`1` (end). -/

/-- `use_overtime = delay_exit > 0.0 and timeout == 0.0`. -/
def useOvertime (delayExit timeout : ℚ) : Bool :=
  decide (0 < delayExit) && decide (timeout = 0)

/-- What one call of `exit_fn` observes about the cookie file. -/
structure CookieObs where
  pathExists : Bool
  mtime : Option ℚ
  deriving Repr, DecidableEq

/-- One call of `exit_fn(handled_any)`.  `touchMtime` is the
`touch_mtime` nonlocal, `now1` the clock when `touch_mtime` is first
assigned, `now2` the clock of the comparison against `delay_exit`.
Returns the exit code and the updated `touch_mtime`. -/
def exitFn (cookieTimestamp : Option ℚ) (useOt : Bool) (delayExit : ℚ)
    (handledAny : Bool) (obs : CookieObs) (touchMtime : Option ℚ)
    (now1 now2 : ℚ) : Int × Option ℚ :=
  if !obs.pathExists then (-1, touchMtime)
  else if obs.mtime ≠ cookieTimestamp then
    if handledAny && useOt then
      let t := touchMtime.getD now1
      if now2 - t < delayExit then (0, some t) else (1, some t)
    else (1, touchMtime)
  else (0, touchMtime)

/-- Fold `exit_fn` over a list of call instants `(now1, now2)` with a
fixed cookie observation, collecting the returned codes. -/
def runExit (cookieTimestamp : Option ℚ) (useOt : Bool) (delayExit : ℚ)
    (handledAny : Bool) (obs : CookieObs) :
    Option ℚ → List (ℚ × ℚ) → List Int × Option ℚ
  | touch, [] => ([], touch)
  | touch, c :: rest =>
    let r := exitFn cookieTimestamp useOt delayExit handledAny obs touch c.1 c.2
    let rs := runExit cookieTimestamp useOt delayExit handledAny obs r.2 rest
    (r.1 :: rs.1, rs.2)

end ExitCtl

/-! ## Statement-level helper definitions -/

namespace Prism.fwtd

/-- Suffix stored in `number_words` for a word (`""` if absent). -/
def suffixOf (w : String) : String :=
  ((numberWords w).getD (1, 0, "", false)).2.2.1

/-- The pluralized words of the `units` and `units_tens` tables
(second member of every triple, blanks dropped). -/
def pluralUnitTensWords : List String :=
  (((units ++ unitsTens).map fun row => (row.getD 1 ("", "")).1).filter (· != ""))

/-- The pluralized words of the `scales` table. -/
def pluralScaleWords : List String :=
  scales.map fun p => (p.1.getD 1 ("", "")).1

/-- The cardinal words of all three tables. -/
def cardinalWords : List String :=
  (((units ++ unitsTens).map fun row => (row.getD 0 ("", "")).1).filter (· != "")) ++
  scales.map fun p => (p.1.getD 0 ("", "")).1

/-- The ordinal words of all three tables. -/
def ordinalWords : List String :=
  (((units ++ unitsTens).map fun row => (row.getD 2 ("", "")).1).filter (· != "")) ++
  scales.map fun p => (p.1.getD 2 ("", "")).1

/-- A token the grouping pass acts on: digits only and at most two
characters. -/
def shortDigitTok (w : String) : Bool :=
  pyIsDigit w && w.length ≤ 2

/-- No two adjacent tokens are both short digit tokens. -/
def noAdjShortDigits : List String → Bool
  | [] => true
  | [_] => true
  | a :: b :: rest =>
    !(shortDigitTok a && shortDigitTok b) && noAdjShortDigits (b :: rest)

end Prism.fwtd

/-! ## Claims C2, C5, C6, C7, C8: concrete parser evaluations -/

/-- C2: with `numbers_as_digits`, `["twenty", "twelve"]` is rewritten to
`["20", "12"]` and grouped to `["2012"]` — the first half of the claim
holds.  With `numbers_min_value = 3000` the revert splices back the
`"".join` of the prior-copy, producing the single glued token
`"twentytwelve"` instead of restoring `["twenty", "twelve"]`; the code
contradicts the restoration the prior-copy is kept for. -/
theorem c2_twenty_twelve_eval :
    Prism.fwtd.parseNumbersInWordList 100 ["twenty", "twelve"] = some ["2012"] ∧
    Prism.fwtd.parseNumbersInWordList 100 ["twenty", "twelve"] false (some 3000) false
      = some ["twentytwelve"] := by
  exact ⟨by decide, by decide⟩

/-- C5 counterexample: the pluralized scale word `"hundreds"` carries
the suffix `"s"` in the dictionary, not `"'s"` as claimed. -/
theorem c5_hundreds_counterexample :
    Prism.fwtd.numberWords "hundreds" = some (100, 0, "s", true) ∧
    ("s" : String) ≠ "'s" := by
  exact ⟨by decide, by decide⟩

/-- C5 (amended): pluralized unit and tens words map to `"'s"`, but
pluralized scale words (`"hundreds"`, `"thousands"`, …) map to `"s"`;
cardinals map to `""` and ordinals map to `"st"`/`"nd"`/`"rd"`/`"th"`. -/
theorem c5_suffix_map :
    (Prism.fwtd.pluralUnitTensWords.all fun w => Prism.fwtd.suffixOf w == "'s") ∧
    (Prism.fwtd.pluralScaleWords.all fun w => Prism.fwtd.suffixOf w == "s") ∧
    (Prism.fwtd.cardinalWords.all fun w => Prism.fwtd.suffixOf w == "") ∧
    (Prism.fwtd.ordinalWords.all fun w => Prism.fwtd.suffixOf w ==
      (if w == "first" then "st" else if w == "second" then "nd"
       else if w == "third" then "rd" else "th")) := by
  refine ⟨by decide, by decide, by decide, by decide⟩

/-- C6: the series delimiter splits `twenty twenty and twenty twenty
one` into `2020 and 2021` instead of letting the phrases collapse. -/
theorem c6_series_split :
    Prism.fwtd.parseNumbersInWordList 100
      ["twenty", "twenty", "and", "twenty", "twenty", "one"]
      = some ["2020", "and", "2021"] := by decide

/-- C7: `"and"` joins a scale word to a following unit
(`one hundred and two` → `102`) but never fuses two standalone units
(`three and two` stays `3 and 2`, and is in particular not `5`). -/
theorem c7_and_connective :
    Prism.fwtd.parseNumbersInWordList 100 ["one", "hundred", "and", "two"]
      = some ["102"] ∧
    Prism.fwtd.parseNumbersInWordList 100 ["three", "and", "two"]
      = some ["3", "and", "2"] ∧
    Prism.fwtd.parseNumbersInWordList 100 ["three", "and", "two"]
      ≠ some ["5"] := by
  refine ⟨by decide, by decide, by decide⟩

/-- C8: the parser is not idempotent.  With `numbers_min_value = 3000`,
parsing `["one","hundred","and","two","twelve"]` once yields
`["102","hundred"]` — pass 1 shrinks the list, so the below-minimum
revert of the token `"12"` at index 1 restores the *misaligned*
prior-copy word `"hundred"` instead of `"twelve"` — and parsing that
result again turns the reintroduced number word into `["102","100"]`. -/
theorem c8_not_idempotent :
    Prism.fwtd.parseNumbersInWordList 100
      ["one", "hundred", "and", "two", "twelve"] false (some 3000) false
      = some ["102", "hundred"] ∧
    Prism.fwtd.parseNumbersInWordList 100
      ["102", "hundred"] false (some 3000) false
      = some ["102", "100"] ∧
    (["102", "100"] : List String) ≠ ["102", "hundred"] := by
  refine ⟨by decide, by decide, by decide⟩

/-! ## Claim C4: `exit_fn` and the delay-exit grace period -/

/-- C4 counterexample: with `delay_exit = 5` but `timeout = 1`,
`use_overtime` is false, so at the very first observation of the end
request (elapsed time `10 - 10 = 0 < 5`) and with a hypothesis already
handled, `exit_fn` returns `1` (end) immediately instead of continuing. -/
theorem c4_counterexample :
    ExitCtl.useOvertime 5 1 = false ∧
    ExitCtl.exitFn (some 0) (ExitCtl.useOvertime 5 1) 5 true
      ⟨true, some 1⟩ none 10 10 = (1, none) ∧
    (10 : ℚ) - 10 < 5 := by
  have h1 : ExitCtl.useOvertime 5 1 = false := by
    simp [ExitCtl.useOvertime]
  refine ⟨h1, ?_, by norm_num⟩
  simp [ExitCtl.exitFn, h1]

/-- Once `touch_mtime` is set, every further call compares its second
clock reading against the recorded instant and keeps the recording. -/
theorem runExit_some_touch (cts : Option ℚ) (delayExit : ℚ)
    (obs : ExitCtl.CookieObs) (hex : obs.pathExists = true)
    (hmt : obs.mtime ≠ cts) (t : ℚ) :
    ∀ calls : List (ℚ × ℚ),
      ExitCtl.runExit cts true delayExit true obs (some t) calls
        = (calls.map fun c => if c.2 - t < delayExit then 0 else 1, some t) := by
  intro calls
  induction calls with
  | nil => rfl
  | cons c rest ih =>
    simp only [ExitCtl.runExit, ExitCtl.exitFn, hex, hmt, Bool.not_true,
      Bool.false_eq_true, if_false, ne_eq, not_false_iff, if_true,
      Bool.and_self, Option.getD_some, List.map_cons]
    split <;> simp [ih]

/-- C4 (amended): when `delay_exit > 0` **and** the silence timeout is
disabled (`timeout == 0`, the extra condition `use_overtime` imposes),
with a hypothesis handled and the end request observed, `exit_fn`
records the first observation instant and returns `0` (continue) at
exactly the calls whose clock is within `delay_exit` of it, returning
`1` (end) afterwards. -/
theorem c4_delay_exit_grace (delayExit timeout : ℚ) (hd : 0 < delayExit)
    (ht : timeout = 0) (cts : Option ℚ) (obs : ExitCtl.CookieObs)
    (hex : obs.pathExists = true) (hmt : obs.mtime ≠ cts)
    (a1 b1 : ℚ) (rest : List (ℚ × ℚ)) :
    (ExitCtl.runExit cts (ExitCtl.useOvertime delayExit timeout) delayExit
        true obs none ((a1, b1) :: rest)).1
      = ((a1, b1) :: rest).map fun c => if c.2 - a1 < delayExit then 0 else 1 := by
  have hot : ExitCtl.useOvertime delayExit timeout = true := by
    simp [ExitCtl.useOvertime, ht, hd]
  rw [hot]
  simp only [ExitCtl.runExit, ExitCtl.exitFn, hex, hmt, Bool.not_true,
    Bool.false_eq_true, if_false, ne_eq, not_false_iff, if_true,
    Bool.and_self, Option.getD_none, List.map_cons]
  split <;> simp [runExit_some_touch cts delayExit obs hex hmt a1 rest]

/-- Witness for C4: `delay_exit = 5`, `timeout = 0`, end observed with
calls at clocks `11, 13, 17` relative to a first observation at `10`:
the codes are `0, 0, 1`. -/
theorem c4_delay_exit_grace_witness :
    (ExitCtl.runExit (some 0) (ExitCtl.useOvertime 5 0) 5 true
        ⟨true, some 1⟩ none [(10, 11), (12, 13), (16, 17)]).1
      = [0, 0, 1] := by
  have h := c4_delay_exit_grace 5 0 (by norm_num) rfl (some 0) ⟨true, some 1⟩
    rfl (by simp) 10 11 [(12, 13), (16, 17)]
  rw [h]; norm_num

/-! ## Claim C1: progressive emission reproduces the processed text -/

/-- Shifting the mismatch scan by one position on both texts. -/
theorem matchIdxGo_shift (c p : List Char) (a b : Char) (m : Nat) :
    ∀ fuel i, Engine.matchIdxGo (a :: c) (b :: p) (m + 1) fuel (i + 1)
      = Engine.matchIdxGo c p m fuel i + 1 := by
  intro fuel
  induction fuel with
  | zero => intro i; rfl
  | succ f ih =>
    intro i
    have hgl : Engine.matchIdxGo (a :: c) (b :: p) (m + 1) (f + 1) (i + 1)
        = if i + 1 < m + 1 then
            (if ((a :: c).getD (i + 1) 'a' != (b :: p).getD (i + 1) 'a') = true
             then i + 1
             else Engine.matchIdxGo (a :: c) (b :: p) (m + 1) f (i + 1 + 1))
          else m + 1 := rfl
    have hgr : Engine.matchIdxGo c p m (f + 1) i
        = if i < m then
            (if (c.getD i 'a' != p.getD i 'a') = true then i
             else Engine.matchIdxGo c p m f (i + 1))
          else m := rfl
    rw [hgl, hgr]
    by_cases h : i < m
    · rw [if_pos (by omega), if_pos h, List.getD_cons_succ, List.getD_cons_succ]
      by_cases hc : (c.getD i 'a' != p.getD i 'a') = true
      · rw [if_pos hc, if_pos hc]
      · rw [if_neg hc, if_neg hc]
        exact ih (i + 1)
    · rw [if_neg (by omega), if_neg h]

/-- The mismatch scan of `handle_fn_wrapper` computes the length of the
longest common prefix. -/
theorem matchIdx_eq_lcpLen : ∀ c p : List Char,
    Engine.matchIdx c p = Engine.lcpLen c p := by
  intro c
  induction c with
  | nil => intro p; cases p <;> rfl
  | cons a c ih =>
    intro p
    cases p with
    | nil => rfl
    | cons b p' =>
      have hlcp : Engine.lcpLen (a :: c) (b :: p')
          = if a = b then Engine.lcpLen c p' + 1 else 0 := rfl
      have hm : min (a :: c).length (b :: p').length
          = min c.length p'.length + 1 := by
        simp [Nat.succ_min_succ]
      have hmi : Engine.matchIdx (a :: c) (b :: p')
          = Engine.matchIdxGo (a :: c) (b :: p') (min c.length p'.length + 1)
              (min c.length p'.length + 1) 0 := by
        show Engine.matchIdxGo (a :: c) (b :: p')
            (min (a :: c).length (b :: p').length)
            (min (a :: c).length (b :: p').length) 0 = _
        rw [hm]
      have hstep : Engine.matchIdxGo (a :: c) (b :: p')
          (min c.length p'.length + 1) (min c.length p'.length + 1) 0
          = if ((a :: c).getD 0 'a' != (b :: p').getD 0 'a') = true then 0
            else Engine.matchIdxGo (a :: c) (b :: p')
              (min c.length p'.length + 1) (min c.length p'.length) 1 := by
        show (if 0 < min c.length p'.length + 1 then _ else _) = _
        rw [if_pos (by omega)]
      rw [hmi, hlcp, hstep]
      by_cases hab : a = b
      · have hd : ((a :: c).getD 0 'a' != (b :: p').getD 0 'a') = false := by
          simp [hab]
        rw [hd]
        simp only [Bool.false_eq_true, if_false, if_pos hab]
        rw [show (1 : Nat) = 0 + 1 from rfl,
          matchIdxGo_shift c p' a b (min c.length p'.length)
            (min c.length p'.length) 0]
        rw [show Engine.matchIdxGo c p' (min c.length p'.length)
            (min c.length p'.length) 0 = Engine.matchIdx c p' from rfl]
        rw [ih p']
      · have hd : ((a :: c).getD 0 'a' != (b :: p').getD 0 'a') = true := by
          simpa using hab
        rw [hd]
        simp [hab]

/-- The longest common prefix really is a common prefix. -/
theorem lcpLen_take_eq : ∀ c p : List Char,
    c.take (Engine.lcpLen c p) = p.take (Engine.lcpLen c p) := by
  intro c
  induction c with
  | nil => intro p; cases p <;> rfl
  | cons a c ih =>
    intro p
    cases p with
    | nil => rfl
    | cons b p' =>
      have hlcp : Engine.lcpLen (a :: c) (b :: p')
          = if a = b then Engine.lcpLen c p' + 1 else 0 := rfl
      rw [hlcp]
      by_cases hab : a = b
      · rw [if_pos hab, List.take_succ_cons, List.take_succ_cons, hab, ih p']
      · rw [if_neg hab]
        rfl

/-- The longest common prefix is never longer than either text. -/
theorem lcpLen_le_length : ∀ c p : List Char,
    Engine.lcpLen c p ≤ c.length ∧ Engine.lcpLen c p ≤ p.length := by
  intro c
  induction c with
  | nil => intro p; cases p <;> simp [Engine.lcpLen]
  | cons a c ih =>
    intro p
    cases p with
    | nil => simp [Engine.lcpLen]
    | cons b p' =>
      have hlcp : Engine.lcpLen (a :: c) (b :: p')
          = if a = b then Engine.lcpLen c p' + 1 else 0 := rfl
      rw [hlcp]
      by_cases hab : a = b
      · rw [if_pos hab]
        have := ih p'
        simp only [List.length_cons]
        omega
      · rw [if_neg hab]
        simp

/-- Closed form for one progressive non-continuous call of
`handle_fn_wrapper`. -/
theorem handleStep_prog_noncont (post : List Char → List Char)
    (s : Engine.EngSt) (text : List Char) (isPartial : Bool) :
    Engine.handleStep true false post s text isPartial =
      (⟨if isPartial then s.textList else s.textList ++ [text],
        post (Engine.joinSpaceL (s.textList ++ [text])), true⟩,
       if post (Engine.joinSpaceL (s.textList ++ [text])) = s.textPrev then []
       else [(s.textPrev.length -
           Engine.matchIdx (post (Engine.joinSpaceL (s.textList ++ [text]))) s.textPrev,
         (post (Engine.joinSpaceL (s.textList ++ [text]))).drop
           (Engine.matchIdx (post (Engine.joinSpaceL (s.textList ++ [text]))) s.textPrev))]) := by
  unfold Engine.handleStep
  by_cases h : post (Engine.joinSpaceL (s.textList ++ [text])) = s.textPrev
  · rw [h]
    cases isPartial <;> simp [h]
  · cases isPartial <;> simp [h]

/-- Applying the emitted edit to a buffer holding the previously
emitted text yields the candidate text. -/
theorem applyEdit_prev (curr prev : List Char) :
    Engine.applyEdit prev
        (prev.length - Engine.matchIdx curr prev, curr.drop (Engine.matchIdx curr prev))
      = curr := by
  unfold Engine.applyEdit
  rw [matchIdx_eq_lcpLen]
  have hle := lcpLen_le_length curr prev
  have h1 : prev.length - (prev.length - Engine.lcpLen curr prev)
      = Engine.lcpLen curr prev := by omega
  show prev.take _ ++ _ = _
  rw [h1, ← lcpLen_take_eq, List.take_append_drop]

/-- One progressive non-continuous call keeps the typed buffer equal to
`text_prev`. -/
theorem handleStep_buffer (post : List Char → List Char) (s : Engine.EngSt)
    (text : List Char) (isPartial : Bool) :
    Engine.applyEdits s.textPrev
        (Engine.handleStep true false post s text isPartial).2
      = (Engine.handleStep true false post s text isPartial).1.textPrev := by
  rw [handleStep_prog_noncont]
  by_cases h : post (Engine.joinSpaceL (s.textList ++ [text])) = s.textPrev
  · simp [Engine.applyEdits, h]
  · simp only [if_neg h]
    show Engine.applyEdit s.textPrev _ = _
    rw [applyEdit_prev]

/-- Buffer invariant: starting from a buffer holding `text_prev`,
running any sequence of hypotheses in progressive non-continuous mode
leaves the buffer holding the final `text_prev`. -/
theorem runSteps_buffer (post : List Char → List Char) :
    ∀ (events : List (List Char × Bool)) (s : Engine.EngSt),
      Engine.applyEdits s.textPrev (Engine.runSteps true false post s events).2
        = (Engine.runSteps true false post s events).1.textPrev := by
  intro events
  induction events with
  | nil => intro s; rfl
  | cons e es ih =>
    intro s
    have hrun : Engine.runSteps true false post s (e :: es)
        = ((Engine.runSteps true false post
              (Engine.handleStep true false post s e.1 e.2).1 es).1,
           (Engine.handleStep true false post s e.1 e.2).2 ++
             (Engine.runSteps true false post
               (Engine.handleStep true false post s e.1 e.2).1 es).2) := rfl
    rw [hrun]
    show Engine.applyEdits s.textPrev (_ ++ _) = _
    unfold Engine.applyEdits
    rw [List.foldl_append]
    have h1 := handleStep_buffer post s e.1 e.2
    unfold Engine.applyEdits at h1
    rw [h1]
    have h2 := ih (Engine.handleStep true false post s e.1 e.2).1
    unfold Engine.applyEdits at h2
    exact h2

/-- Partial hypotheses leave `text_list` untouched. -/
theorem runSteps_partials_textList (post : List Char → List Char) :
    ∀ (partials : List (List Char)) (s : Engine.EngSt),
      (Engine.runSteps true false post s
        (partials.map fun t => (t, true))).1.textList = s.textList := by
  intro partials
  induction partials with
  | nil => intro s; rfl
  | cons t ts ih =>
    intro s
    rw [List.map_cons]
    have hrun : (Engine.runSteps true false post s
          ((t, true) :: ts.map fun t => (t, true))).1
        = (Engine.runSteps true false post
            (Engine.handleStep true false post s t true).1
            (ts.map fun t => (t, true))).1 := rfl
    rw [hrun, ih, handleStep_prog_noncont]
    simp

/-- `runSteps` over a concatenation of event lists. -/
theorem runSteps_append (post : List Char → List Char) :
    ∀ (es1 es2 : List (List Char × Bool)) (s : Engine.EngSt),
      Engine.runSteps true false post s (es1 ++ es2)
        = ((Engine.runSteps true false post
              (Engine.runSteps true false post s es1).1 es2).1,
           (Engine.runSteps true false post s es1).2 ++
             (Engine.runSteps true false post
               (Engine.runSteps true false post s es1).1 es2).2) := by
  intro es1
  induction es1 with
  | nil => intro es2 s; rfl
  | cons e es ih =>
    intro es2 s
    have h1 : Engine.runSteps true false post s (e :: es ++ es2)
        = ((Engine.runSteps true false post
             (Engine.handleStep true false post s e.1 e.2).1 (es ++ es2)).1,
           (Engine.handleStep true false post s e.1 e.2).2 ++
             (Engine.runSteps true false post
               (Engine.handleStep true false post s e.1 e.2).1 (es ++ es2)).2) := rfl
    have h2 : Engine.runSteps true false post s (e :: es)
        = ((Engine.runSteps true false post
             (Engine.handleStep true false post s e.1 e.2).1 es).1,
           (Engine.handleStep true false post s e.1 e.2).2 ++
             (Engine.runSteps true false post
               (Engine.handleStep true false post s e.1 e.2).1 es).2) := rfl
    rw [h1, ih, h2]
    simp [List.append_assoc]

/-- C1: in progressive non-continuous mode, every emitted edit is
`(len(prev) - p, curr[p:])` for `p` the longest-common-prefix length of
the previously emitted string and the processed candidate
`post(join(text_list + [text]))`, and replaying every emitted edit on
an initially empty buffer reproduces the processed final hypothesis
character for character, for any sequence of partials followed by a
final. -/
theorem c1_progressive_emission (post : List Char → List Char) :
    (∀ (s : Engine.EngSt) (text : List Char) (isPartial : Bool),
      (Engine.handleStep true false post s text isPartial).2 =
        if post (Engine.joinSpaceL (s.textList ++ [text])) = s.textPrev then []
        else [(s.textPrev.length -
            Engine.lcpLen (post (Engine.joinSpaceL (s.textList ++ [text]))) s.textPrev,
          (post (Engine.joinSpaceL (s.textList ++ [text]))).drop
            (Engine.lcpLen (post (Engine.joinSpaceL (s.textList ++ [text]))) s.textPrev))]) ∧
    (∀ (partials : List (List Char)) (final : List Char),
      Engine.applyEdits []
        (Engine.runSteps true false post Engine.initSt
          ((partials.map fun t => (t, true)) ++ [(final, false)])).2
        = post final) := by
  constructor
  · intro s text isPartial
    rw [handleStep_prog_noncont, matchIdx_eq_lcpLen]
  · intro partials final
    have hb : Engine.applyEdits []
        (Engine.runSteps true false post Engine.initSt
          ((partials.map fun t => (t, true)) ++ [(final, false)])).2
        = (Engine.runSteps true false post Engine.initSt
            ((partials.map fun t => (t, true)) ++ [(final, false)])).1.textPrev :=
      runSteps_buffer post
        ((partials.map fun t => (t, true)) ++ [(final, false)]) Engine.initSt
    rw [hb, runSteps_append]
    have hs1 : (Engine.runSteps true false post
          (Engine.runSteps true false post Engine.initSt
            (partials.map fun t => (t, true))).1 [(final, false)]).1
        = (Engine.handleStep true false post
            (Engine.runSteps true false post Engine.initSt
              (partials.map fun t => (t, true))).1 final false).1 := rfl
    show (Engine.runSteps true false post
        (Engine.runSteps true false post Engine.initSt
          (partials.map fun t => (t, true))).1 [(final, false)]).1.textPrev = _
    rw [hs1, handleStep_prog_noncont]
    show post (Engine.joinSpaceL
      ((Engine.runSteps true false post Engine.initSt
        (partials.map fun t => (t, true))).1.textList ++ [final])) = _
    rw [runSteps_partials_textList]
    show post (Engine.joinSpaceL ([] ++ [final])) = _
    simp [Engine.joinSpaceL, List.intercalate]

/-! ## Claim C3: identity on lists without number words -/

/-- An in-range `getD` access is a member of the list. -/
theorem getD_mem_self {l : List String} {i : Nat} (h : i < l.length) :
    l.getD i "" ∈ l := by
  rw [List.getD_eq_getElem l "" h]
  exact List.getElem_mem h

/-- Splicing a singleton slice back over itself is the identity. -/
theorem spliceAssign_slice_self (ws : List String) (i : Nat) :
    Prism.pySpliceAssign ws i (i + 1) (Prism.pySlice ws i (i + 1)) = ws := by
  unfold Prism.pySpliceAssign Prism.pySlice
  rw [show i + 1 - i = 1 by omega, List.append_assoc,
    show i + 1 = i + 1 from rfl]
  rw [List.drop_take_append_drop]
  exact List.take_append_drop i ws

/-- The inner grouping scan stops immediately when the token at `j` is
not a short digit token (or `j` is out of range). -/
theorem scanJ_stop (ws : List String) (j : Nat)
    (h : ws.length ≤ j ∨ Prism.fwtd.shortDigitTok (ws.getD j "") = false) :
    ∀ fuel, Prism.fwtd.scanJ ws fuel j = j := by
  intro fuel
  cases fuel with
  | zero => rfl
  | succ f =>
    show (if j < ws.length then _ else j) = j
    rcases h with h | h
    · rw [if_neg (by omega)]
    · by_cases hj : j < ws.length
      · rw [if_pos hj]
        have : (Prism.pyIsDigit (ws.getD j "") && (ws.getD j "").length ≤ 2)
            = false := h
        rw [this]
        simp
      · rw [if_neg hj]

/-- Reading the no-adjacent-short-digits predicate at an index. -/
theorem noAdjShortDigits_pair : ∀ ws : List String,
    Prism.fwtd.noAdjShortDigits ws = true →
    ∀ i, i + 1 < ws.length →
      Prism.fwtd.shortDigitTok (ws.getD i "") = true →
      Prism.fwtd.shortDigitTok (ws.getD (i + 1) "") = false := by
  intro ws
  induction ws with
  | nil => intro _ i hi; simp at hi
  | cons a rest ih =>
    intro h i hi hs
    cases rest with
    | nil => simp at hi
    | cons b rest' =>
      have h' : (!(Prism.fwtd.shortDigitTok a && Prism.fwtd.shortDigitTok b)
          && Prism.fwtd.noAdjShortDigits (b :: rest')) = true := h
      rw [Bool.and_eq_true] at h'
      cases i with
      | zero =>
        have ha : Prism.fwtd.shortDigitTok a = true := hs
        cases hb : Prism.fwtd.shortDigitTok b
        · simpa using hb
        · rw [ha, hb] at h'
          simp at h'
      | succ i' =>
        have := ih h'.2 i' (by simpa using hi)
        simpa using this hs

/-- Pass 1 is the identity on a list with no dictionary words. -/
theorem pass1Loop_no_words (useSep noSuffix : Bool) (ws : List String)
    (hw : ∀ w ∈ ws, Prism.fwtd.numberWords w = none) :
    ∀ fuel i pPrev, ws.length - i < fuel →
      Prism.fwtd.pass1Loop useSep noSuffix fuel ws i pPrev = some ws := by
  intro fuel
  induction fuel with
  | zero => intro i p h; omega
  | succ f ih =>
    intro i p h
    simp only [Prism.fwtd.pass1Loop]
    by_cases hi : i < ws.length
    · rw [if_pos hi]
      have hv : Prism.fwtd.validDigitWord (ws.getD i "") = false := by
        unfold Prism.fwtd.validDigitWord Prism.fwtd.inNumberWords
        rw [hw _ (getD_mem_self hi)]
        rfl
      rw [hv]
      simp only [Bool.false_eq_true, if_false]
      exact ih (i + 1) p (by omega)
    · rw [if_neg hi]

/-- A below-minimum revert of an ungrouped token splices the token back
over itself. -/
theorem pass2_min_revert_self (minValue : Option Nat) (ws : List String) (i : Nat) :
    (match minValue with
     | some m =>
       if Prism.strToNat (ws.getD i "") < m then
         Prism.pySpliceAssign ws i (i + 1) (Prism.pySlice ws i (i + 1))
       else ws
     | none => ws) = ws := by
  cases minValue with
  | none => rfl
  | some m =>
    show (if _ then _ else _) = ws
    by_cases hlt : Prism.strToNat (ws.getD i "") < m
    · rw [if_pos hlt, spliceAssign_slice_self]
    · rw [if_neg hlt]

/-- Pass 2 is the identity when no two adjacent tokens are short digit
tokens and the prior-copy equals the list. -/
theorem pass2Loop_no_adj (minValue : Option Nat) (ws : List String)
    (hadj : Prism.fwtd.noAdjShortDigits ws = true) :
    ∀ fuel i, ws.length - i < fuel →
      Prism.fwtd.pass2Loop minValue fuel ws ws i = some ws := by
  intro fuel
  induction fuel with
  | zero => intro i h; omega
  | succ f ih =>
    intro i h
    simp only [Prism.fwtd.pass2Loop]
    by_cases hi : i < ws.length
    · rw [if_pos hi]
      by_cases hs : (Prism.pyIsDigit (ws.getD i "") && (ws.getD i "").length ≤ 2) = true
      · rw [hs]
        have hj : Prism.fwtd.scanJ ws (ws.length - (i + 1)) (i + 1) = i + 1 := by
          apply scanJ_stop
          by_cases hlast : i + 1 < ws.length
          · exact Or.inr (noAdjShortDigits_pair ws hadj i hlast hs)
          · exact Or.inl (by omega)
        rw [hj]
        simp only [if_true]
        have hne : (i + 1 != i + 1) = false := by simp
        rw [hne]
        simp only [Bool.false_eq_true, if_false]
        rw [pass2_min_revert_self minValue ws i]
        exact ih (i + 1) (by omega)
      · rw [Bool.eq_false_iff.mpr hs]
        simp only [Bool.false_eq_true, if_false]
        exact ih (i + 1) (by omega)
    · rw [if_neg hi]

/-- C3 counterexample: `["1", "2"]` contains no number word, yet the
grouping pass rewrites it to `["12"]`, so the parser is not the
identity on every such list. -/
theorem c3_digit_grouping_counterexample :
    ((["1", "2"] : List String).all fun w =>
      (Prism.fwtd.numberWords w).isNone) = true ∧
    Prism.fwtd.parseNumbersInWordList 100 ["1", "2"] = some ["12"] ∧
    Prism.fwtd.parseNumbersInWordList 100 ["1", "2"] ≠ some ["1", "2"] := by
  refine ⟨by decide, by decide, by decide⟩

/-- C3 (amended): on a token list with no dictionary words in which no
two adjacent tokens are both short digit tokens (at most two characters,
digits only), `parse_numbers_in_word_list` is the identity, for every
setting of the options. -/
theorem c3_no_number_words_identity (ws : List String)
    (useSep : Bool) (minv : Option Nat) (nosuf : Bool)
    (hw : ∀ w ∈ ws, Prism.fwtd.numberWords w = none)
    (hadj : Prism.fwtd.noAdjShortDigits ws = true) :
    Prism.fwtd.parseNumbersInWordList (ws.length + 1) ws useSep minv nosuf
      = some ws := by
  unfold Prism.fwtd.parseNumbersInWordList
  rw [pass1Loop_no_words useSep nosuf ws hw (ws.length + 1) 0 none (by omega)]
  show Prism.fwtd.pass2Loop minv (ws.length + 1) ws ws 0 = some ws
  exact pass2Loop_no_adj minv ws hadj (ws.length + 1) 0 (by omega)

/-- Witness for C3: a concrete list with no number words and no
adjacent short digit tokens is left unchanged. -/
theorem c3_no_number_words_identity_witness :
    Prism.fwtd.parseNumbersInWordList 4 ["foo", "12", "bar"] true (some 100) true
      = some ["foo", "12", "bar"] := by
  have h := c3_no_number_words_identity ["foo", "12", "bar"] true (some 100) true
    (by decide) (by decide)
  simpa using h

/-! ## Claim C9: `process_text` output contains no newline -/

/-- Digit characters of values below ten are never a newline. -/
theorem digitChar_ne_nl (m : Nat) (hm : m < 10) : Nat.digitChar m ≠ '\n' := by
  interval_cases m <;> decide

/-- Every character produced by `natToDigits` is a decimal digit
character of a value below ten, hence not a newline. -/
theorem natToDigits_ne_nl : ∀ fuel n c, c ∈ Prism.natToDigits fuel n → c ≠ '\n' := by
  intro fuel
  induction fuel with
  | zero => intro n c hc; simp [Prism.natToDigits] at hc
  | succ f ih =>
    intro n c hc
    unfold Prism.natToDigits at hc
    by_cases h : n < 10
    · rw [if_pos h] at hc
      simp at hc
      subst hc
      exact digitChar_ne_nl n h
    · rw [if_neg h] at hc
      rcases List.mem_append.mp hc with hc | hc
      · exact ih _ _ hc
      · simp at hc
        subst hc
        exact digitChar_ne_nl _ (Nat.mod_lt _ (by omega))

/-- `fmtNat` never contains a newline. -/
theorem fmtNat_ne_nl (n : Nat) : '\n' ∉ (Prism.fmtNat n).data := by
  intro h
  exact natToDigits_ne_nl _ _ _ h rfl

/-- Characters of `groupRevDigits` are commas or come from the input. -/
theorem groupRevDigits_mem : ∀ k l c, c ∈ Prism.groupRevDigits k l →
    c = ',' ∨ c ∈ l := by
  intro k l
  induction l generalizing k with
  | nil => intro c hc; simp [Prism.groupRevDigits] at hc
  | cons a as ih =>
    intro c hc
    unfold Prism.groupRevDigits at hc
    by_cases hk : k = 0
    · rw [if_pos hk] at hc
      rcases List.mem_cons.mp hc with rfl | hc
      · exact Or.inl rfl
      · rcases List.mem_cons.mp hc with rfl | hc
        · exact Or.inr (List.mem_cons_self _ _)
        · rcases ih 2 c hc with h | h
          · exact Or.inl h
          · exact Or.inr (List.mem_cons_of_mem a h)
    · rw [if_neg hk] at hc
      rcases List.mem_cons.mp hc with rfl | hc
      · exact Or.inr (List.mem_cons_self _ _)
      · rcases ih (k - 1) c hc with h | h
        · exact Or.inl h
        · exact Or.inr (List.mem_cons_of_mem a h)

/-- `fmtNatSep` never contains a newline. -/
theorem fmtNatSep_ne_nl (n : Nat) : '\n' ∉ (Prism.fmtNatSep n).data := by
  intro h
  have h' : '\n' ∈ Prism.groupRevDigits 3 (List.reverse (Prism.natToDigits (n + 1) n)) := by
    have : ('\n' : Char) ∈ (Prism.groupRevDigits 3
        (List.reverse (Prism.natToDigits (n + 1) n))).reverse := h
    simpa using this
  rcases groupRevDigits_mem _ _ _ h' with h'' | h''
  · exact absurd h'' (by decide)
  · exact natToDigits_ne_nl _ _ _ (List.mem_reverse.mp h'') rfl

/-- Members of a slice come from the list. -/
theorem pySlice_subset (l : List String) (a b : Nat) :
    ∀ w ∈ Prism.pySlice l a b, w ∈ l := by
  intro w hw
  exact List.mem_of_mem_drop (List.mem_of_mem_take hw)

/-- Members of a splice come from the list or from the new fragment. -/
theorem pySpliceAssign_subset (l new : List String) (a b : Nat) :
    ∀ w ∈ Prism.pySpliceAssign l a b new, w ∈ l ∨ w ∈ new := by
  intro w hw
  unfold Prism.pySpliceAssign at hw
  rcases List.mem_append.mp hw with hw | hw
  · rcases List.mem_append.mp hw with hw | hw
    · exact Or.inl (List.mem_of_mem_take hw)
    · exact Or.inr hw
  · exact Or.inl (List.mem_of_mem_drop hw)

/-- An indexed read from a list of newline-free tokens is newline-free
(the default `""` trivially is). -/
theorem getD_ne_nl (l : List String) (h : ∀ w ∈ l, '\n' ∉ w.data) (n : Nat) :
    '\n' ∉ (l.getD n "").data := by
  by_cases hn : n < l.length
  · exact h _ (getD_mem_self hn)
  · rw [List.getD_eq_default]
    · intro hc; simp at hc
    · omega

set_option maxRecDepth 10000 in
/-- Every suffix stored in the number dictionary is newline-free. -/
theorem numberWords_suffix_ne_nl (w : String) (e : Prism.fwtd.Entry)
    (h : Prism.fwtd.numberWords w = some e) : '\n' ∉ e.2.2.1.data := by
  have hall : ∀ pr ∈ Prism.fwtd.insertions, '\n' ∉ pr.2.2.2.1.data := by decide
  unfold Prism.fwtd.numberWords at h
  rcases Option.map_eq_some'.mp h with ⟨pr, hfind, hpr⟩
  have hmem : pr ∈ Prism.fwtd.insertions.reverse := List.mem_of_find?_eq_some hfind
  have := hall pr (List.mem_reverse.mp hmem)
  rw [hpr] at this
  exact this

/-- The string a connective splices in is newline-free. -/
theorem connectiveJoin_ne_nl (b : List String) (sep : String)
    (h : Prism.fwtd.connectiveJoin b = some sep) : '\n' ∉ sep.data := by
  unfold Prism.fwtd.connectiveJoin at h
  split_ifs at h <;> simp_all <;> subst h <;> decide

/-- `wholeFinish` keeps number and suffix newline-free. -/
theorem wholeFinish_ne_nl (current result : Nat) (suffix : String)
    (isFinal : Bool) (idx : Nat) (resFin : Prism.fwtd.ParseRes)
    (hs : '\n' ∉ suffix.data) (h1 : '\n' ∉ resFin.1.data)
    (h2 : '\n' ∉ resFin.2.1.data) :
    '\n' ∉ (Prism.fwtd.wholeFinish current result suffix isFinal idx resFin).1.data ∧
    '\n' ∉ (Prism.fwtd.wholeFinish current result suffix isFinal idx resFin).2.1.data := by
  unfold Prism.fwtd.wholeFinish
  cases isFinal
  · simpa using ⟨h1, h2⟩
  · simpa using ⟨fmtNat_ne_nl _, hs⟩

set_option maxHeartbeats 2000000 in
/-- The whole-value loop returns a newline-free number and suffix. -/
theorem wholeLoop_ne_nl (ws : List String) (limit : Nat) (imp force : Bool) :
    ∀ (fuel idx current result : Nat) (suffix : String) (isFinal : Bool)
      (ifr scaleFinal : Nat) (wif : Option Nat) (onlyScale : Bool)
      (resFin : Prism.fwtd.ParseRes),
      '\n' ∉ suffix.data → '\n' ∉ resFin.1.data → '\n' ∉ resFin.2.1.data →
      '\n' ∉ (Prism.fwtd.wholeLoop ws limit imp force fuel idx current result
          suffix isFinal ifr scaleFinal wif onlyScale resFin).1.data ∧
      '\n' ∉ (Prism.fwtd.wholeLoop ws limit imp force fuel idx current result
          suffix isFinal ifr scaleFinal wif onlyScale resFin).2.1.data := by
  intro fuel
  induction fuel with
  | zero =>
    intro idx current result suffix isFinal ifr scaleFinal wif onlyScale resFin hs h1 h2
    exact wholeFinish_ne_nl _ _ _ _ _ _ hs h1 h2
  | succ f ih =>
    intro idx current result suffix isFinal ifr scaleFinal wif onlyScale resFin hs h1 h2
    simp only [Prism.fwtd.wholeLoop]
    split
    case isFalse => exact wholeFinish_ne_nl _ _ _ _ _ _ hs h1 h2
    case isTrue hidx =>
      split
      case h_1 => exact wholeFinish_ne_nl _ _ _ _ _ _ hs h1 h2
      case h_2 e scale increment0 wSfx wFin heq =>
        have hws : '\n' ∉ wSfx.data := numberWords_suffix_ne_nl _ _ heq
        split
        · exact wholeFinish_ne_nl _ _ _ _ _ _ hs h1 h2
        split
        · exact wholeFinish_ne_nl _ _ _ _ _ _ hws h1 h2
        split
        · exact wholeFinish_ne_nl _ _ _ _ _ _ hws h1 h2
        split <;> split <;>
          first
            | exact wholeFinish_ne_nl _ _ _ _ _ _ hws h1 h2
            | (split <;>
                first
                  | (refine wholeFinish_ne_nl _ _ _ _ _ _ hws ?_ ?_ <;>
                      cases wFin <;>
                        first
                          | simpa using h1
                          | simpa using h2
                          | simpa using fmtNat_ne_nl _
                          | simpa using hws)
                  | (refine ih _ _ _ _ _ _ _ _ _ _ hws ?_ ?_ <;>
                      cases wFin <;>
                        first
                          | simpa using h1
                          | simpa using h2
                          | simpa using fmtNat_ne_nl _
                          | simpa using hws))

/-- `parse_number` returns a newline-free number and suffix. -/
theorem parseNumber_ne_nl (ws : List String) (idx : Nat) (imp : Bool) :
    '\n' ∉ (Prism.fwtd.parseNumber ws idx imp).1.data ∧
    '\n' ∉ (Prism.fwtd.parseNumber ws idx imp).2.1.data := by
  unfold Prism.fwtd.parseNumber Prism.fwtd.parseNumberAsWholeValue
  exact wholeLoop_ne_nl _ _ _ _ _ _ _ _ _ _ _ _ _ _ _
    (by simp) (by simp) (by simp)

/-- Pass 1 only ever introduces newline-free tokens. -/
theorem pass1Loop_ne_nl (useSep noSuffix : Bool) :
    ∀ fuel ws i p r, (∀ w ∈ ws, '\n' ∉ w.data) →
      Prism.fwtd.pass1Loop useSep noSuffix fuel ws i p = some r →
      ∀ w ∈ r, '\n' ∉ w.data := by
  intro fuel
  induction fuel with
  | zero =>
    intro ws i p r _ h
    exact absurd h (by simp [Prism.fwtd.pass1Loop])
  | succ f ih =>
    intro ws i p r hws h
    simp only [Prism.fwtd.pass1Loop] at h
    split at h
    case isFalse =>
      obtain rfl := Option.some.inj h
      exact hws
    case isTrue hi =>
      split at h
      case isFalse => exact ih ws (i + 1) p r hws h
      case isTrue hv =>
        split at h
        case isFalse => exact ih ws (i + 1) p r hws h
        case isTrue hne =>
          split at h
          case isTrue hsuf => exact ih ws (i + 1) p r hws h
          case isFalse hsuf =>
            have hnum := (parseNumber_ne_nl ws i true).1
            have hsfx := (parseNumber_ne_nl ws i true).2
            have htok : '\n' ∉ ((if useSep && (Prism.fwtd.parseNumber ws i true).2.2.2 then
                  Prism.fmtNatSep (Prism.strToNat (Prism.fwtd.parseNumber ws i true).1)
                else (Prism.fwtd.parseNumber ws i true).1)
                ++ (Prism.fwtd.parseNumber ws i true).2.1).data := by
              intro hc
              rw [String.data_append] at hc
              rcases List.mem_append.mp hc with hc | hc
              · revert hc
                split
                · intro hc; exact fmtNatSep_ne_nl _ hc
                · intro hc; exact hnum hc
              · exact hsfx hc
            have hws1 : ∀ w ∈ Prism.pySpliceAssign ws i
                (Prism.fwtd.parseNumber ws i true).2.2.1
                [(if useSep && (Prism.fwtd.parseNumber ws i true).2.2.2 then
                    Prism.fmtNatSep (Prism.strToNat (Prism.fwtd.parseNumber ws i true).1)
                  else (Prism.fwtd.parseNumber ws i true).1)
                  ++ (Prism.fwtd.parseNumber ws i true).2.1],
                '\n' ∉ w.data := by
              intro w hw
              rcases pySpliceAssign_subset _ _ _ _ w hw with h' | h'
              · exact hws w h'
              · rw [List.mem_singleton] at h'
                subst h'
                exact htok
            split at h
            case h_1 p' =>
              split at h
              case isTrue hpi =>
                split at h
                case h_1 sep hsep =>
                  refine ih _ _ _ _ ?_ h
                  intro w hw
                  rcases pySpliceAssign_subset _ _ _ _ w hw with h' | h'
                  · exact hws1 w h'
                  · rw [List.mem_singleton] at h'
                    subst h'
                    intro hc
                    rw [String.data_append, String.data_append] at hc
                    rcases List.mem_append.mp hc with hc | hc
                    · rcases List.mem_append.mp hc with hc | hc
                      · exact getD_ne_nl _ hws1 _ hc
                      · exact connectiveJoin_ne_nl _ _ hsep hc
                    · exact getD_ne_nl _ hws1 _ hc
                case h_2 => exact ih _ _ _ _ hws1 h
              case isFalse => exact ih _ _ _ _ hws1 h
            case h_2 => exact ih _ _ _ _ hws1 h

/-- Characters of `String.join` come from the joined strings. -/
theorem join_foldl_data (l : List String) :
    ∀ acc : String, (l.foldl (fun r s => r ++ s) acc).data
      = acc.data ++ (l.map String.data).flatten := by
  induction l with
  | nil => intro acc; simp
  | cons s ss ih =>
    intro acc
    show (ss.foldl (fun r s => r ++ s) (acc ++ s)).data = _
    rw [ih (acc ++ s), String.data_append]
    simp

/-- `String.join` of newline-free strings is newline-free. -/
theorem join_ne_nl (l : List String) (h : ∀ s ∈ l, '\n' ∉ s.data) :
    '\n' ∉ (String.join l).data := by
  intro hc
  have : (String.join l).data = (l.map String.data).flatten := by
    show (l.foldl (fun r s => r ++ s) "").data = _
    rw [join_foldl_data l ""]
    rfl
  rw [this] at hc
  rcases List.mem_flatten.mp hc with ⟨part, hpart, hcpart⟩
  rcases List.mem_map.mp hpart with ⟨s, hs, rfl⟩
  exact h s hs hcpart

/-- Pass 2 only ever introduces newline-free tokens. -/
theorem pass2Loop_ne_nl (minValue : Option Nat) :
    ∀ fuel ws orig i r, (∀ w ∈ ws, '\n' ∉ w.data) →
      (∀ w ∈ orig, '\n' ∉ w.data) →
      Prism.fwtd.pass2Loop minValue fuel ws orig i = some r →
      ∀ w ∈ r, '\n' ∉ w.data := by
  intro fuel
  induction fuel with
  | zero =>
    intro ws orig i r _ _ h
    exact absurd h (by simp [Prism.fwtd.pass2Loop])
  | succ f ih =>
    intro ws orig i r hws horig h
    simp only [Prism.fwtd.pass2Loop] at h
    split at h
    case isFalse =>
      obtain rfl := Option.some.inj h
      exact hws
    case isTrue hi =>
      split at h
      case isFalse => exact ih ws orig (i + 1) r hws horig h
      case isTrue hs =>
        have hsplice : ∀ (l : List String), (∀ w ∈ l, '\n' ∉ w.data) →
            ∀ (a b : Nat) w,
            w ∈ Prism.pySpliceAssign l a b [String.join (Prism.pySlice l a b)] →
            '\n' ∉ w.data := by
          intro l hl a b w hw
          rcases pySpliceAssign_subset _ _ _ _ w hw with h' | h'
          · exact hl w h'
          · rw [List.mem_singleton] at h'
            subst h'
            exact join_ne_nl _ fun s hsl => hl s (pySlice_subset l a b s hsl)
        refine ih _ _ _ _ ?_ ?_ h
        · -- the updated word list is newline-free
          intro w hw
          repeat' split at hw
          all_goals
            first
              | exact hws w hw
              | exact hsplice ws hws _ _ w hw
              | exact hsplice orig horig _ _ w hw
              | (rcases pySpliceAssign_subset _ _ _ _ w hw with hmem | hmem
                 · first
                     | exact hws w hmem
                     | exact hsplice ws hws _ _ w hmem
                 · first
                     | exact horig w (pySlice_subset _ _ _ _ hmem)
                     | exact hsplice orig horig _ _ w (pySlice_subset _ _ _ _ hmem))
        · -- the updated prior-copy is newline-free
          intro w hw
          repeat' split at hw
          all_goals
            first
              | exact horig w hw
              | exact hsplice orig horig _ _ w hw

/-- `parse_numbers_in_word_list` only ever introduces newline-free
tokens. -/
theorem parseNumbersInWordList_ne_nl (fuel : Nat) (ws : List String)
    (us : Bool) (mv : Option Nat) (ns : Bool) (r : List String)
    (hws : ∀ w ∈ ws, '\n' ∉ w.data)
    (h : Prism.fwtd.parseNumbersInWordList fuel ws us mv ns = some r) :
    ∀ w ∈ r, '\n' ∉ w.data := by
  unfold Prism.fwtd.parseNumbersInWordList at h
  rcases Option.bind_eq_some.mp h with ⟨ws1, h1, h2⟩
  exact pass2Loop_ne_nl mv fuel ws1 ws 0 r
    (pass1Loop_ne_nl us ns fuel ws 0 none ws1 hws h1) hws h2

/-- Newline replacement removes every newline. -/
theorem replaceNL_ne_nl (s : List Char) : '\n' ∉ Prism.replaceNL s := by
  intro h
  rcases List.mem_map.mp h with ⟨a, _, ha⟩
  by_cases h' : a = '\n' <;> simp [h'] at ha

/-- Characters of the split parts come from the split input. -/
theorem splitChar_subset (sep : Char) :
    ∀ (l : List Char) (part : List Char), part ∈ Prism.splitChar sep l →
      ∀ c ∈ part, c ∈ l := by
  intro l
  induction l with
  | nil =>
    intro part hp c hc
    simp [Prism.splitChar] at hp
    subst hp
    simp at hc
  | cons a as ih =>
    intro part hp c hc
    unfold Prism.splitChar at hp
    cases hr : Prism.splitChar sep as with
    | nil =>
      rw [hr] at hp
      simp at hp
      subst hp
      simp at hc
      subst hc
      exact List.mem_cons_self _ _
    | cons hh tt =>
      rw [hr] at hp
      have hp' : part ∈ (if a = sep then ([] : List Char) :: hh :: tt
          else (a :: hh) :: tt) := hp
      by_cases hsep : a = sep
      · rw [if_pos hsep] at hp'
        rcases List.mem_cons.mp hp' with rfl | hp'
        · simp at hc
        · have hpart : part ∈ Prism.splitChar sep as := by rw [hr]; exact hp'
          exact List.mem_cons_of_mem a (ih part hpart c hc)
      · rw [if_neg hsep] at hp'
        rcases List.mem_cons.mp hp' with rfl | hp'
        · rcases List.mem_cons.mp hc with rfl | hc
          · exact List.mem_cons_self _ _
          · have hpart : hh ∈ Prism.splitChar sep as := by
              rw [hr]; exact List.mem_cons_self _ _
            exact List.mem_cons_of_mem a (ih hh hpart c hc)
        · have hpart : part ∈ Prism.splitChar sep as := by
            rw [hr]; exact List.mem_cons_of_mem _ hp'
          exact List.mem_cons_of_mem a (ih part hpart c hc)

/-- ASCII uppercasing never produces a newline. -/
theorem asciiUpper_ne_nl (c : Char) (h : c ≠ '\n') : Prism.asciiUpper c ≠ '\n' := by
  unfold Prism.asciiUpper
  split <;> first | decide | exact h

/-- ASCII lowercasing never produces a newline. -/
theorem asciiLower_ne_nl (c : Char) (h : c ≠ '\n') : Prism.asciiLower c ≠ '\n' := by
  unfold Prism.asciiLower
  split <;> first | decide | exact h

/-- `str.capitalize` keeps a token newline-free. -/
theorem pyCapitalize_ne_nl (w : String) (h : '\n' ∉ w.data) :
    '\n' ∉ (Prism.pyCapitalize w).data := by
  unfold Prism.pyCapitalize
  cases hw : w.data with
  | nil => simp
  | cons c cs =>
    intro hc
    rcases List.mem_cons.mp hc with hc | hc
    · exact asciiUpper_ne_nl c (fun he => h (hw ▸ (he ▸ List.mem_cons_self c cs))) hc.symm
    · rcases List.mem_map.mp hc with ⟨a, ha, ha'⟩
      exact asciiLower_ne_nl a
        (fun he => h (hw ▸ (he ▸ List.mem_cons_of_mem c ha))) ha'

/-- Capitalizing the first token keeps every token newline-free. -/
theorem capitalizeFirst_ne_nl (l : List String) (h : ∀ w ∈ l, '\n' ∉ w.data) :
    ∀ w ∈ Prism.capitalizeFirst l, '\n' ∉ w.data := by
  cases l with
  | nil => intro w hw; simp [Prism.capitalizeFirst] at hw
  | cons a rest =>
    intro w hw
    rcases List.mem_cons.mp hw with rfl | hw
    · exact pyCapitalize_ne_nl a (h a (List.mem_cons_self _ _))
    · exact h w (List.mem_cons_of_mem a hw)

/-- Members of `intersperse` are members or the separator. -/
theorem mem_intersperse_cases {α} (sep : α) :
    ∀ (xs : List α) (x : α), x ∈ List.intersperse sep xs → x ∈ xs ∨ x = sep := by
  intro xs
  induction xs with
  | nil => intro x hx; simp at hx
  | cons a rest ih =>
    intro x hx
    cases rest with
    | nil =>
      simp at hx
      subst hx
      exact Or.inl (List.mem_cons_self _ _)
    | cons b rest' =>
      rw [List.intersperse_cons_cons] at hx
      rcases List.mem_cons.mp hx with rfl | hx
      · exact Or.inl (List.mem_cons_self _ _)
      · rcases List.mem_cons.mp hx with rfl | hx
        · exact Or.inr rfl
        · rcases ih x hx with h | h
          · exact Or.inl (List.mem_cons_of_mem a h)
          · exact Or.inr h

/-- `" ".join` of newline-free tokens is newline-free. -/
theorem joinSpaceStr_ne_nl (l : List String) (h : ∀ w ∈ l, '\n' ∉ w.data) :
    '\n' ∉ (Prism.joinSpaceStr l).data := by
  intro hc
  have hc' : ('\n' : Char) ∈ List.intercalate [' '] (l.map String.data) := hc
  unfold List.intercalate at hc'
  rcases List.mem_flatten.mp hc' with ⟨part, hpart, hcpart⟩
  rcases mem_intersperse_cases [' '] _ part hpart with hp | hp
  · rcases List.mem_map.mp hp with ⟨s, hs, rfl⟩
    exact h s hs hcpart
  · subst hp
    simp at hcpart

/-- C9: for every input string and every option setting, whenever
`process_text` returns a result, the result contains no newline
character: every embedded newline is replaced by a space up front and
no later stage reintroduces one. -/
theorem c9_process_text_no_newline (fuel : Nat) (text : String)
    (fullSentence numbersAsDigits numbersUseSeparator : Bool)
    (numbersMinValue : Option Nat) (numbersNoSuffix : Bool) (r : String)
    (h : Prism.processText fuel text fullSentence numbersAsDigits
        numbersUseSeparator numbersMinValue numbersNoSuffix = some r) :
    '\n' ∉ r.data := by
  unfold Prism.processText at h
  rcases Option.map_eq_some'.mp h with ⟨words1, hw1, rfl⟩
  have hwords : ∀ w ∈ (Prism.splitChar ' '
      (Prism.replaceNL text.data)).map String.mk, '\n' ∉ w.data := by
    intro w hw
    rcases List.mem_map.mp hw with ⟨part, hpart, rfl⟩
    intro hc
    exact replaceNL_ne_nl text.data (splitChar_subset ' ' _ part hpart '\n' hc)
  have hN : ∀ w ∈ words1, '\n' ∉ w.data := by
    revert hw1
    split
    · intro hw1
      exact parseNumbersInWordList_ne_nl fuel _ _ _ _ words1 hwords hw1
    · intro hw1
      obtain rfl := Option.some.inj hw1
      exact hwords
  apply joinSpaceStr_ne_nl
  split
  · exact capitalizeFirst_ne_nl words1 hN
  · exact hN

/-- Witness for C9 at a concrete input with an embedded newline. -/
theorem c9_process_text_no_newline_witness :
    Prism.processText 100 "hello\nworld x" true true = some "Hello world x" ∧
    '\n' ∉ ("Hello world x" : String).data := by
  have heq : Prism.processText 100 "hello\nworld x" true true
      = some "Hello world x" := by decide
  exact ⟨heq, c9_process_text_no_newline 100 "hello\nworld x" true true false
    none false "Hello world x" heq⟩

/-! ## Claim C10: the parser terminates

The scan index of pass 1 moves backwards after an arithmetic fusion
and the list is spliced while being scanned, so the loop runs on fuel;
termination is the statement that the fuel bound `3·len + 1` always
suffices.  The measure for pass 1 is
`2·len + countP valid_digit_words (drop i) - i`. -/

/-- `wholeFinish` reports either the stored final index or the current
one. -/
theorem wholeFinish_idx_cases (current result : Nat) (suffix : String)
    (isFinal : Bool) (idx : Nat) (resFin : Prism.fwtd.ParseRes) :
    (Prism.fwtd.wholeFinish current result suffix isFinal idx resFin).2.2.1
        = resFin.2.2.1 ∨
    (Prism.fwtd.wholeFinish current result suffix isFinal idx resFin).2.2.1 = idx := by
  unfold Prism.fwtd.wholeFinish
  cases isFinal
  · simp
  · simp

set_option maxHeartbeats 2000000 in
/-- The whole-value loop never reports an end index below the start. -/
theorem wholeLoop_idx_ge (ws : List String) (limit : Nat) (imp force : Bool)
    (lo : Nat) :
    ∀ (fuel idx current result : Nat) (suffix : String) (isFinal : Bool)
      (ifr scaleFinal : Nat) (wif : Option Nat) (onlyScale : Bool)
      (resFin : Prism.fwtd.ParseRes),
      lo ≤ idx → lo ≤ resFin.2.2.1 →
      lo ≤ (Prism.fwtd.wholeLoop ws limit imp force fuel idx current result
          suffix isFinal ifr scaleFinal wif onlyScale resFin).2.2.1 := by
  have hfin : ∀ current result suffix isFinal idx
      (resFin : Prism.fwtd.ParseRes), lo ≤ idx → lo ≤ resFin.2.2.1 →
      lo ≤ (Prism.fwtd.wholeFinish current result suffix isFinal idx resFin).2.2.1 := by
    intro current result suffix isFinal idx resFin h1 h2
    rcases wholeFinish_idx_cases current result suffix isFinal idx resFin with h | h
    · omega
    · omega
  intro fuel
  induction fuel with
  | zero =>
    intro idx current result suffix isFinal ifr scaleFinal wif onlyScale resFin h1 h2
    exact hfin _ _ _ _ _ _ h1 h2
  | succ f ih =>
    intro idx current result suffix isFinal ifr scaleFinal wif onlyScale resFin h1 h2
    simp only [Prism.fwtd.wholeLoop]
    split
    case isFalse => exact hfin _ _ _ _ _ _ h1 h2
    case isTrue hidx =>
      split
      case h_1 => exact hfin _ _ _ _ _ _ h1 h2
      case h_2 e scale increment0 wSfx wFin heq =>
        split
        · exact hfin _ _ _ _ _ _ h1 h2
        split
        · exact hfin _ _ _ _ _ _ h1 h2
        split
        · exact hfin _ _ _ _ _ _ h1 h2
        split <;> split <;>
          first
            | (refine hfin _ _ _ _ _ _ ?_ ?_ <;>
                first
                  | omega
                  | (cases wFin <;> simp <;> omega))
            | (split <;>
                first
                  | (refine hfin _ _ _ _ _ _ ?_ ?_ <;>
                      first
                        | omega
                        | (cases wFin <;> simp <;> omega))
                  | (refine ih _ _ _ _ _ _ _ _ _ _ ?_ ?_ <;>
                      first
                        | omega
                        | (cases wFin <;> simp <;> omega)))

set_option maxHeartbeats 2000000 in
/-- The whole-value loop never reports an end index above the joint
bound of the limit, the start and the stored final index. -/
theorem wholeLoop_idx_le (ws : List String) (limit : Nat) (imp force : Bool)
    (B : Nat) (hlim : limit ≤ B) :
    ∀ (fuel idx current result : Nat) (suffix : String) (isFinal : Bool)
      (ifr scaleFinal : Nat) (wif : Option Nat) (onlyScale : Bool)
      (resFin : Prism.fwtd.ParseRes),
      idx ≤ B → resFin.2.2.1 ≤ B →
      (Prism.fwtd.wholeLoop ws limit imp force fuel idx current result
          suffix isFinal ifr scaleFinal wif onlyScale resFin).2.2.1 ≤ B := by
  have hfin : ∀ current result suffix isFinal idx
      (resFin : Prism.fwtd.ParseRes), idx ≤ B → resFin.2.2.1 ≤ B →
      (Prism.fwtd.wholeFinish current result suffix isFinal idx resFin).2.2.1 ≤ B := by
    intro current result suffix isFinal idx resFin h1 h2
    rcases wholeFinish_idx_cases current result suffix isFinal idx resFin with h | h
    · omega
    · omega
  intro fuel
  induction fuel with
  | zero =>
    intro idx current result suffix isFinal ifr scaleFinal wif onlyScale resFin h1 h2
    exact hfin _ _ _ _ _ _ h1 h2
  | succ f ih =>
    intro idx current result suffix isFinal ifr scaleFinal wif onlyScale resFin h1 h2
    simp only [Prism.fwtd.wholeLoop]
    split
    case isFalse => exact hfin _ _ _ _ _ _ h1 h2
    case isTrue hidx =>
      split
      case h_1 => exact hfin _ _ _ _ _ _ h1 h2
      case h_2 e scale increment0 wSfx wFin heq =>
        split
        · exact hfin _ _ _ _ _ _ h1 h2
        split
        · exact hfin _ _ _ _ _ _ h1 h2
        split
        · exact hfin _ _ _ _ _ _ h1 h2
        split <;> split <;>
          first
            | (refine hfin _ _ _ _ _ _ ?_ ?_ <;>
                first
                  | omega
                  | (cases wFin <;> simp <;> omega))
            | (split <;>
                first
                  | (refine hfin _ _ _ _ _ _ ?_ ?_ <;>
                      first
                        | omega
                        | (cases wFin <;> simp <;> omega))
                  | (refine ih _ _ _ _ _ _ _ _ _ _ ?_ ?_ <;>
                      first
                        | omega
                        | (cases wFin <;> simp <;> omega)))

/-- `_parse_number_as_whole_value` ends at or after where it starts. -/
theorem parseWhole_idx_ge (ws : List String) (limit idx : Nat) (imp force : Bool) :
    idx ≤ (Prism.fwtd.parseNumberAsWholeValue ws limit idx imp force).2.2.1 := by
  unfold Prism.fwtd.parseNumberAsWholeValue
  exact wholeLoop_idx_ge ws limit imp force idx _ _ _ _ _ _ _ _ _ _ _
    (le_refl idx) (le_refl idx)

/-- `_parse_number_as_whole_value` never ends beyond its limit and
start. -/
theorem parseWhole_idx_le (ws : List String) (limit idx : Nat) (imp force : Bool)
    (B : Nat) (h1 : idx ≤ B) (h2 : limit ≤ B) :
    (Prism.fwtd.parseNumberAsWholeValue ws limit idx imp force).2.2.1 ≤ B := by
  unfold Prism.fwtd.parseNumberAsWholeValue
  exact wholeLoop_idx_le ws limit imp force B h2 _ _ _ _ _ _ _ _ _ _ _ h1 h1

/-- The series-delimiter epilogue stays within the scan bound. -/
theorem seriesFinish_le (ws : List String) (wordIndexLen iSpanBeg i B : Nat)
    (rt : Option Prism.fwtd.ParseRes) (hlen : wordIndexLen ≤ B)
    (hi : i ≤ B) (hspan : iSpanBeg ≤ B)
    (hrt : ∀ x, rt = some x → x.2.2.1 ≤ B) :
    Prism.fwtd.seriesFinish ws wordIndexLen iSpanBeg i rt ≤ B := by
  cases rt with
  | none => exact hlen
  | some x =>
    show (if (x.1.length ==
        (Prism.fwtd.parseNumberAsWholeValue ws i iSpanBeg false true).1.length)
        = true
      then x.2.2.1 else wordIndexLen) ≤ B
    split
    · exact hrt x rfl
    · exact hlen

/-- The series delimiter stays within the scan bound. -/
theorem seriesLoop_le (ws : List String) (wordIndex wordIndexLen B : Nat)
    (hlen : wordIndexLen ≤ B) :
    ∀ (fuel i iSpanBeg : Nat) (wPrev : String)
      (rp rt : Option Prism.fwtd.ParseRes), i ≤ B → iSpanBeg ≤ B →
      (∀ x, rt = some x → x.2.2.1 ≤ B) →
      Prism.fwtd.seriesLoop ws wordIndex wordIndexLen fuel i iSpanBeg wPrev rp rt
        ≤ B := by
  intro fuel
  induction fuel with
  | zero =>
    intro i iSpanBeg wPrev rp rt hi hspan hrt
    exact seriesFinish_le ws wordIndexLen iSpanBeg i B rt hlen hi hspan hrt
  | succ f ih =>
    intro i iSpanBeg wPrev rp rt hi hspan hrt
    simp only [Prism.fwtd.seriesLoop]
    split
    case isFalse =>
      exact seriesFinish_le ws wordIndexLen iSpanBeg i B rt hlen hi hspan hrt
    case isTrue hilen =>
      split
      case isTrue =>
        exact seriesFinish_le ws wordIndexLen iSpanBeg i B rt hlen hi hspan hrt
      case isFalse =>
        split
        case isTrue =>
          exact ih (i + 1) iSpanBeg wPrev rp rt (by omega) hspan hrt
        case isFalse =>
          split
          case isTrue =>
            split
            case isTrue hcond =>
              rw [Bool.and_eq_true] at hcond
              cases hcase : rt with
              | none => rw [hcase] at hcond; simp at hcond
              | some p =>
                simp only [Option.getD_some]
                exact hrt p hcase
            case isFalse =>
              refine ih (i + 1) i _ rt _ (by omega) (by omega) ?_
              intro x hx
              obtain rfl := Option.some.inj hx
              exact parseWhole_idx_le ws i iSpanBeg false true B hspan (by omega)
          case isFalse =>
            exact ih (i + 1) iSpanBeg (ws.getD i "") rp rt (by omega) hspan hrt

/-- The slide delimiter stays within the scan bound. -/
theorem slideLoop_le (ws : List String) (wordIndex wordIndexLen B : Nat)
    (hlen : wordIndexLen ≤ B) (hwi : wordIndex ≤ B) :
    ∀ (fuel i : Nat) (wPrev : String),
      Prism.fwtd.slideLoop ws wordIndex wordIndexLen fuel i wPrev ≤ B := by
  intro fuel
  induction fuel with
  | zero => intro i wPrev; exact hlen
  | succ f ih =>
    intro i wPrev
    simp only [Prism.fwtd.slideLoop]
    split
    case isFalse => exact hlen
    case isTrue hilen =>
      split
      case isTrue => exact hlen
      case isFalse =>
        split
        case isTrue => exact ih (i + 1) wPrev
        case isFalse =>
          split
          case isTrue =>
            split
            case isTrue =>
              exact parseWhole_idx_le ws i wordIndex false true B hwi (by omega)
            case isFalse => exact ih (i + 1) (ws.getD i "")
          case isFalse => exact ih (i + 1) (ws.getD i "")

/-- `parse_number` never ends before its start index. -/
theorem parseNumber_idx_ge (ws : List String) (idx : Nat) (imp : Bool) :
    idx ≤ (Prism.fwtd.parseNumber ws idx imp).2.2.1 := by
  unfold Prism.fwtd.parseNumber
  exact parseWhole_idx_ge ws _ idx imp false

/-- `parse_number` never ends beyond the list. -/
theorem parseNumber_idx_le (ws : List String) (idx : Nat) (imp : Bool)
    (h : idx ≤ ws.length) :
    (Prism.fwtd.parseNumber ws idx imp).2.2.1 ≤ ws.length := by
  unfold Prism.fwtd.parseNumber
  have h1 : Prism.fwtd.parseNumberCalcDelimiterFromSeries ws idx ws.length
      ≤ ws.length := by
    unfold Prism.fwtd.parseNumberCalcDelimiterFromSeries
    refine seriesLoop_le ws idx ws.length ws.length (le_refl _) _ idx idx "" none
      none h h ?_
    intro x hx
    exact absurd hx (by simp)
  have h2 : Prism.fwtd.parseNumberCalcDelimiterFromSlide ws idx
      (Prism.fwtd.parseNumberCalcDelimiterFromSeries ws idx ws.length)
      ≤ ws.length := by
    unfold Prism.fwtd.parseNumberCalcDelimiterFromSlide
    exact slideLoop_le ws idx _ ws.length h1 h _ idx ""
  exact parseWhole_idx_le ws _ idx imp false ws.length h h2

/-- Digit characters of values below ten are decimal digits. -/
theorem digitChar_isDigit (m : Nat) (hm : m < 10) :
    (Nat.digitChar m).isDigit = true := by
  interval_cases m <;> decide

/-- Every character produced by `natToDigits` is a decimal digit. -/
theorem natToDigits_digit : ∀ fuel n c, c ∈ Prism.natToDigits fuel n →
    c.isDigit = true := by
  intro fuel
  induction fuel with
  | zero => intro n c hc; simp [Prism.natToDigits] at hc
  | succ f ih =>
    intro n c hc
    unfold Prism.natToDigits at hc
    by_cases h : n < 10
    · rw [if_pos h] at hc
      simp at hc
      subst hc
      exact digitChar_isDigit n h
    · rw [if_neg h] at hc
      rcases List.mem_append.mp hc with hc | hc
      · exact ih _ _ hc
      · simp at hc
        subst hc
        exact digitChar_isDigit _ (Nat.mod_lt _ (by omega))

/-- `natToDigits` with its canonical fuel is never empty. -/
theorem natToDigits_ne_nil (n : Nat) : Prism.natToDigits (n + 1) n ≠ [] := by
  unfold Prism.natToDigits
  split <;> simp

/-- `fmtNat` contains a digit character. -/
theorem fmtNat_has_digit (n : Nat) :
    ∃ c ∈ (Prism.fmtNat n).data, c.isDigit = true ∨ c = ',' := by
  rcases List.exists_mem_of_ne_nil _ (natToDigits_ne_nil n) with ⟨c, hc⟩
  exact ⟨c, hc, Or.inl (natToDigits_digit _ _ _ hc)⟩

/-- `groupRevDigits` of a non-empty list is non-empty. -/
theorem groupRevDigits_ne_nil (k : Nat) (l : List Char) (h : l ≠ []) :
    Prism.groupRevDigits k l ≠ [] := by
  cases l with
  | nil => exact absurd rfl h
  | cons c cs =>
    unfold Prism.groupRevDigits
    split <;> simp

/-- `fmtNatSep` contains a digit or comma character. -/
theorem fmtNatSep_has_digit (n : Nat) :
    ∃ c ∈ (Prism.fmtNatSep n).data, c.isDigit = true ∨ c = ',' := by
  have hne : (Prism.fmtNatSep n).data ≠ [] := by
    show List.reverse _ ≠ []
    simp only [ne_eq, List.reverse_eq_nil_iff]
    apply groupRevDigits_ne_nil
    simp only [ne_eq, List.reverse_eq_nil_iff]
    exact natToDigits_ne_nil n
  rcases List.exists_mem_of_ne_nil _ hne with ⟨c, hc⟩
  refine ⟨c, hc, ?_⟩
  have hc' : c ∈ Prism.groupRevDigits 3
      (List.reverse (Prism.natToDigits (n + 1) n)) := List.mem_reverse.mp hc
  rcases groupRevDigits_mem _ _ _ hc' with h | h
  · exact Or.inr h
  · exact Or.inl (natToDigits_digit _ _ _ (List.mem_reverse.mp h))

set_option maxRecDepth 40000 in
/-- A word containing a digit or comma is not a dictionary word: every
dictionary key is made of letters and apostrophes only. -/
theorem validDigitWord_eq_false_of_special (tok : String)
    (h : ∃ c ∈ tok.data, c.isDigit = true ∨ c = ',') :
    Prism.fwtd.validDigitWord tok = false := by
  have hall : ∀ pr ∈ Prism.fwtd.insertions, ∀ c ∈ pr.1.data,
      ¬(c.isDigit = true ∨ c = ',') := by decide
  cases hv : Prism.fwtd.validDigitWord tok with
  | false => rfl
  | true =>
    exfalso
    unfold Prism.fwtd.validDigitWord Prism.fwtd.inNumberWords at hv
    rw [Bool.and_eq_true, Bool.and_eq_true] at hv
    rcases Option.isSome_iff_exists.mp hv.1.1 with ⟨e, he⟩
    unfold Prism.fwtd.numberWords at he
    rcases Option.map_eq_some'.mp he with ⟨pr, hfind, _⟩
    have hkey : pr.1 = tok := by
      have := List.find?_some hfind
      simpa using this
    have hmem : pr ∈ Prism.fwtd.insertions :=
      List.mem_reverse.mp (List.mem_of_find?_eq_some hfind)
    rcases h with ⟨c, hc, hprop⟩
    exact hall pr hmem c (by rw [hkey]; exact hc) hprop

set_option maxHeartbeats 2000000 in
/-- The whole-value loop either stays at the stored final index or
reports a number containing a digit. -/
theorem wholeLoop_number_digit (ws : List String) (limit : Nat)
    (imp force : Bool) (idx0 : Nat) :
    ∀ (fuel idx current result : Nat) (suffix : String) (isFinal : Bool)
      (ifr scaleFinal : Nat) (wif : Option Nat) (onlyScale : Bool)
      (resFin : Prism.fwtd.ParseRes),
      (resFin.2.2.1 = idx0 ∨ ∃ c ∈ resFin.1.data, c.isDigit = true) →
      ((Prism.fwtd.wholeLoop ws limit imp force fuel idx current result
          suffix isFinal ifr scaleFinal wif onlyScale resFin).2.2.1 = idx0 ∨
        ∃ c ∈ (Prism.fwtd.wholeLoop ws limit imp force fuel idx current result
          suffix isFinal ifr scaleFinal wif onlyScale resFin).1.data,
          c.isDigit = true) := by
  have hfmt : ∀ n : Nat, ∃ c ∈ (Prism.fmtNat n).data, c.isDigit = true := by
    intro n
    rcases fmtNat_has_digit n with ⟨c, hc, hp | hp⟩
    · exact ⟨c, hc, hp⟩
    · rcases List.exists_mem_of_ne_nil _ (natToDigits_ne_nil n) with ⟨c', hc'⟩
      exact ⟨c', hc', natToDigits_digit _ _ _ hc'⟩
  have hfin : ∀ current result suffix isFinal idx
      (resFin : Prism.fwtd.ParseRes),
      (resFin.2.2.1 = idx0 ∨ ∃ c ∈ resFin.1.data, c.isDigit = true) →
      ((Prism.fwtd.wholeFinish current result suffix isFinal idx resFin).2.2.1
          = idx0 ∨
        ∃ c ∈ (Prism.fwtd.wholeFinish current result suffix isFinal
          idx resFin).1.data, c.isDigit = true) := by
    intro current result suffix isFinal idx resFin h1
    unfold Prism.fwtd.wholeFinish
    cases isFinal
    · simpa using h1
    · simp only [Bool.not_true, Bool.false_eq_true, if_false]
      exact Or.inr (hfmt _)
  intro fuel
  induction fuel with
  | zero =>
    intro idx current result suffix isFinal ifr scaleFinal wif onlyScale resFin h1
    exact hfin _ _ _ _ _ _ h1
  | succ f ih =>
    intro idx current result suffix isFinal ifr scaleFinal wif onlyScale resFin h1
    simp only [Prism.fwtd.wholeLoop]
    split
    case isFalse => exact hfin _ _ _ _ _ _ h1
    case isTrue hidx =>
      split
      case h_1 => exact hfin _ _ _ _ _ _ h1
      case h_2 e scale increment0 wSfx wFin heq =>
        split
        · exact hfin _ _ _ _ _ _ h1
        split
        · exact hfin _ _ _ _ _ _ h1
        split
        · exact hfin _ _ _ _ _ _ h1
        split <;> split <;>
          first
            | (refine hfin _ _ _ _ _ _ ?_ <;>
                first
                  | exact h1
                  | (cases wFin <;> simp <;> first | exact h1 | exact Or.inr (hfmt _)))
            | (split <;>
                first
                  | (refine hfin _ _ _ _ _ _ ?_ <;>
                      first
                        | exact h1
                        | (cases wFin <;> simp <;>
                            first | exact h1 | exact Or.inr (hfmt _)))
                  | (refine ih _ _ _ _ _ _ _ _ _ _ ?_ <;>
                      first
                        | exact h1
                        | (cases wFin <;> simp <;>
                            first | exact h1 | exact Or.inr (hfmt _))))

/-- `parse_number` either makes no progress or produces a number
containing a digit character. -/
theorem parseNumber_number_digit (ws : List String) (idx : Nat) (imp : Bool) :
    (Prism.fwtd.parseNumber ws idx imp).2.2.1 = idx ∨
    ∃ c ∈ (Prism.fwtd.parseNumber ws idx imp).1.data, c.isDigit = true := by
  unfold Prism.fwtd.parseNumber Prism.fwtd.parseNumberAsWholeValue
  exact wholeLoop_number_digit ws _ imp false idx _ _ _ _ _ _ _ _ _ _ _
    (Or.inl rfl)

/-- Length of a splice (start index in range). -/
theorem pySpliceAssign_length (l new : List String) (a b : Nat)
    (ha : a ≤ l.length) :
    (Prism.pySpliceAssign l a b new).length = a + new.length + (l.length - b) := by
  unfold Prism.pySpliceAssign
  simp only [List.length_append, List.length_take, List.length_drop]
  omega

/-- Dropping the prefix of a splice exposes the new fragment. -/
theorem pySpliceAssign_drop (l new : List String) (a b : Nat)
    (ha : a ≤ l.length) :
    (Prism.pySpliceAssign l a b new).drop a = new ++ l.drop b := by
  unfold Prism.pySpliceAssign
  rw [List.append_assoc]
  exact List.drop_left' (by simp; omega)

/-- The grouping scan moves forward. -/
theorem scanJ_ge (ws : List String) : ∀ fuel j, j ≤ Prism.fwtd.scanJ ws fuel j := by
  intro fuel
  induction fuel with
  | zero => intro j; exact le_refl j
  | succ f ih =>
    intro j
    simp only [Prism.fwtd.scanJ]
    split
    · split
      · exact le_trans (by omega) (ih (j + 1))
      · exact le_refl j
    · exact le_refl j

/-- The grouping scan stays within the list. -/
theorem scanJ_le (ws : List String) : ∀ fuel j, j ≤ ws.length →
    Prism.fwtd.scanJ ws fuel j ≤ ws.length := by
  intro fuel
  induction fuel with
  | zero => intro j hj; exact hj
  | succ f ih =>
    intro j hj
    simp only [Prism.fwtd.scanJ]
    split
    case isTrue hjl =>
      split
      · exact ih (j + 1) (by omega)
      · exact hj
    case isFalse => exact hj

/-- A recognized connective has at least one word between the numbers. -/
theorem connectiveJoin_arg_ne_nil (b : List String) (sep : String)
    (h : Prism.fwtd.connectiveJoin b = some sep) : b ≠ [] := by
  unfold Prism.fwtd.connectiveJoin at h
  split_ifs at h <;> simp_all
  rcases ‹b = ["multiplied", "by"] ∨ b = ["times"]› with rfl | rfl <;> simp

/-- Pass 1 never lengthens the token list. -/
theorem pass1Loop_length_le (useSep noSuffix : Bool) :
    ∀ fuel ws i p r, Prism.fwtd.pass1Loop useSep noSuffix fuel ws i p = some r →
      r.length ≤ ws.length := by
  intro fuel
  induction fuel with
  | zero =>
    intro ws i p r h
    exact absurd h (by simp [Prism.fwtd.pass1Loop])
  | succ f ih =>
    intro ws i p r h
    simp only [Prism.fwtd.pass1Loop] at h
    split at h
    case isFalse =>
      obtain rfl := Option.some.inj h
      exact le_refl _
    case isTrue hi =>
      split at h
      case isFalse => exact ih ws (i + 1) p r h
      case isTrue hv =>
        split at h
        case isFalse => exact ih ws (i + 1) p r h
        case isTrue hne =>
          split at h
          case isTrue hsuf => exact ih ws (i + 1) p r h
          case isFalse hsuf =>
            have hge := parseNumber_idx_ge ws i true
            have hne' : i ≠ (Prism.fwtd.parseNumber ws i true).2.2.1 := by
              simpa using hne
            have hlen1 : (Prism.pySpliceAssign ws i
                (Prism.fwtd.parseNumber ws i true).2.2.1
                [(if useSep && (Prism.fwtd.parseNumber ws i true).2.2.2 then
                    Prism.fmtNatSep (Prism.strToNat (Prism.fwtd.parseNumber ws i true).1)
                  else (Prism.fwtd.parseNumber ws i true).1)
                  ++ (Prism.fwtd.parseNumber ws i true).2.1]).length
                = i + 1 + (ws.length - (Prism.fwtd.parseNumber ws i true).2.2.1) := by
              rw [pySpliceAssign_length _ _ _ _ (by omega)]
              simp
            split at h
            case h_1 p' =>
              split at h
              case isTrue hpi =>
                split at h
                case h_1 sep hsep =>
                  have hng := connectiveJoin_arg_ne_nil _ _ hsep
                  have hfacts : p' + 2 ≤ i ∧ p' + 1 < i + 1 +
                      (ws.length - (Prism.fwtd.parseNumber ws i true).2.2.1) := by
                    unfold Prism.pySlice at hng
                    rw [ne_eq, List.take_eq_nil_iff] at hng
                    push_neg at hng
                    obtain ⟨hng1, hng2⟩ := hng
                    rw [ne_eq, List.drop_eq_nil_iff] at hng2
                    rw [hlen1] at hng2
                    omega
                  have h2 := ih _ _ _ _ h
                  rw [pySpliceAssign_length _ _ _ _ (by omega), hlen1] at h2
                  simp at h2
                  omega
                case h_2 =>
                  have h2 := ih _ _ _ _ h
                  rw [hlen1] at h2
                  omega
              case isFalse =>
                have h2 := ih _ _ _ _ h
                rw [hlen1] at h2
                omega
            case h_2 =>
              have h2 := ih _ _ _ _ h
              rw [hlen1] at h2
              omega

set_option maxHeartbeats 4000000 in
/-- Pass 1 finishes within the measure
`2·len + countP valid_digit_words (drop i) - i`: the scan index only
moves backwards when the list shrinks by at least as much. -/
theorem pass1Loop_terminates (useSep noSuffix : Bool) :
    ∀ fuel ws i p, i ≤ ws.length →
      2 * ws.length + (ws.drop i).countP Prism.fwtd.validDigitWord - i < fuel →
      (Prism.fwtd.pass1Loop useSep noSuffix fuel ws i p).isSome := by
  intro fuel
  induction fuel with
  | zero => intro ws i p hinv h; omega
  | succ f ih =>
    intro ws i p hinv h
    simp only [Prism.fwtd.pass1Loop]
    split
    case isFalse => simp
    case isTrue hi =>
      have hcons : ws.drop i = ws.getD i "" :: ws.drop (i + 1) := by
        rw [List.getD_eq_getElem ws "" hi]
        exact List.drop_eq_getElem_cons hi
      have e1 : (ws.drop i).countP Prism.fwtd.validDigitWord
          = (ws.drop (i + 1)).countP Prism.fwtd.validDigitWord
            + (if Prism.fwtd.validDigitWord (ws.getD i "") = true then 1 else 0) := by
        rw [hcons, List.countP_cons]
      split
      case isFalse hv =>
        refine ih ws (i + 1) p (by omega) ?_
        rw [if_neg hv] at e1
        omega
      case isTrue hv =>
        rw [if_pos hv] at e1
        split
        case isFalse hne =>
          refine ih ws (i + 1) p (by omega) ?_
          omega
        case isTrue hne =>
          split
          case isTrue hsuf =>
            refine ih ws (i + 1) p (by omega) ?_
            omega
          case isFalse hsuf =>
            set pr := Prism.fwtd.parseNumber ws i true with hpr
            set tok := (if useSep && pr.2.2.2 then
                Prism.fmtNatSep (Prism.strToNat pr.1) else pr.1) ++ pr.2.1
              with htok
            set ws1 := Prism.pySpliceAssign ws i pr.2.2.1 [tok] with hws1
            have hge : i ≤ pr.2.2.1 := parseNumber_idx_ge ws i true
            have hne' : i ≠ pr.2.2.1 := by simpa using hne
            have hvdtok : Prism.fwtd.validDigitWord tok = false := by
              apply validDigitWord_eq_false_of_special
              have hnum : ∃ c ∈ (if useSep && pr.2.2.2 then
                    Prism.fmtNatSep (Prism.strToNat pr.1) else pr.1).data,
                  c.isDigit = true ∨ c = ',' := by
                split
                · exact fmtNatSep_has_digit _
                · rcases parseNumber_number_digit ws i true with h' | h'
                  · exact absurd h'.symm hne'
                  · rcases h' with ⟨c, hc, hd⟩
                    exact ⟨c, hc, Or.inl hd⟩
              rcases hnum with ⟨c, hc, hp⟩
              refine ⟨c, ?_, hp⟩
              rw [htok, String.data_append]
              exact List.mem_append_left _ hc
            have hlen1 : ws1.length = i + 1 + (ws.length - pr.2.2.1) := by
              rw [hws1, pySpliceAssign_length _ _ _ _ (by omega)]
              simp
            have hdrop1 : ws1.drop i = [tok] ++ ws.drop pr.2.2.1 := by
              rw [hws1]
              exact pySpliceAssign_drop _ _ _ _ (by omega)
            have e2 : (ws.drop (i + 1)).countP Prism.fwtd.validDigitWord
                = ((ws.drop (i + 1)).take (pr.2.2.1 - (i + 1))).countP
                    Prism.fwtd.validDigitWord
                  + (ws.drop pr.2.2.1).countP Prism.fwtd.validDigitWord := by
              have hsplit := congrArg
                (List.countP Prism.fwtd.validDigitWord)
                (List.drop_take_append_drop ws (i + 1) (pr.2.2.1 - (i + 1))).symm
              rw [List.countP_append] at hsplit
              rw [show i + 1 + (pr.2.2.1 - (i + 1)) = pr.2.2.1 from by omega]
                at hsplit
              exact hsplit
            have e3 : (ws1.drop i).countP Prism.fwtd.validDigitWord
                = (ws.drop pr.2.2.1).countP Prism.fwtd.validDigitWord := by
              rw [hdrop1, List.countP_append]
              simp [List.countP_cons, hvdtok]
            have e5 : ws1.drop (i + 1) = ws.drop pr.2.2.1 := by
              have h5 := congrArg (List.drop 1) hdrop1
              rw [List.drop_drop] at h5
              simpa [Nat.add_comm] using h5
            split
            case h_1 p' =>
              split
              case isTrue hpi =>
                split
                case h_1 sep hsep =>
                  have hng := connectiveJoin_arg_ne_nil _ _ hsep
                  have hfacts : p' + 2 ≤ i ∧ p' + 1 < ws1.length := by
                    unfold Prism.pySlice at hng
                    rw [ne_eq, List.take_eq_nil_iff] at hng
                    push_neg at hng
                    obtain ⟨hng1, hng2⟩ := hng
                    rw [ne_eq, List.drop_eq_nil_iff] at hng2
                    omega
                  have hlen2 : (Prism.pySpliceAssign ws1 p' (i + 1)
                      [ws1.getD p' "" ++ sep ++ ws1.getD i ""]).length
                      = p' + 1 + (ws1.length - (i + 1)) := by
                    rw [pySpliceAssign_length _ _ _ _ (by omega)]
                    simp
                  have hdrop2 : (Prism.pySpliceAssign ws1 p' (i + 1)
                      [ws1.getD p' "" ++ sep ++ ws1.getD i ""]).drop p'
                      = [ws1.getD p' "" ++ sep ++ ws1.getD i ""]
                        ++ ws1.drop (i + 1) := by
                    exact pySpliceAssign_drop _ _ _ _ (by omega)
                  have e6 : ((Prism.pySpliceAssign ws1 p' (i + 1)
                      [ws1.getD p' "" ++ sep ++ ws1.getD i ""]).drop p').countP
                        Prism.fwtd.validDigitWord
                      ≤ 1 + (ws.drop pr.2.2.1).countP Prism.fwtd.validDigitWord := by
                    rw [hdrop2, e5, List.countP_append]
                    have hone : ([ws1.getD p' "" ++ sep ++ ws1.getD i ""].countP
                        Prism.fwtd.validDigitWord) ≤ 1 := by
                      refine le_trans (List.countP_le_length _) ?_
                      simp
                    omega
                  refine ih _ p' (some p') (by rw [hlen2]; omega) ?_
                  rw [hlen2]
                  omega
                case h_2 =>
                  refine ih ws1 i (some i) (by rw [hlen1]; omega) ?_
                  rw [hlen1, e3]
                  omega
              case isFalse =>
                refine ih ws1 i (some i) (by rw [hlen1]; omega) ?_
                rw [hlen1, e3]
                omega
            case h_2 =>
              refine ih ws1 i (some i) (by rw [hlen1]; omega) ?_
              rw [hlen1, e3]
              omega

theorem pySpliceAssign_length_le (l new : List String) (a b : Nat) :
    (Prism.pySpliceAssign l a b new).length ≤ a + new.length + (l.length - b) := by
  unfold Prism.pySpliceAssign
  simp only [List.length_append, List.length_take, List.length_drop]
  omega

theorem pySlice_length_le (l : List String) (a b : Nat) :
    (Prism.pySlice l a b).length ≤ b - a := by
  unfold Prism.pySlice
  simp only [List.length_take, List.length_drop]
  omega

set_option maxHeartbeats 4000000 in
/-- Pass 2 finishes within the measure `2·len - i`: grouping can only
shrink the list, and a below-minimum revert reinstates at most as many
words as were grouped. -/
theorem pass2Loop_terminates (minValue : Option Nat) :
    ∀ fuel ws orig i, 2 * ws.length - i < fuel →
      (Prism.fwtd.pass2Loop minValue fuel ws orig i).isSome := by
  intro fuel
  induction fuel with
  | zero => intro ws orig i h; omega
  | succ f ih =>
    intro ws orig i h
    simp only [Prism.fwtd.pass2Loop]
    split
    case isFalse => simp
    case isTrue hi =>
      split
      case isFalse => exact ih ws orig (i + 1) (by omega)
      case isTrue hd =>
        set j := Prism.fwtd.scanJ ws (ws.length - (i + 1)) (i + 1) with hjdef
        have hj1 : i + 1 ≤ j := scanJ_ge ws _ _
        have hj2 : j ≤ ws.length := scanJ_le ws _ _ (by omega)
        by_cases hJ : (i + 1 != j) = true
        · have hne : i + 1 ≠ j := by simpa using hJ
          simp only [if_pos hJ]
          have hlen1 : (Prism.pySpliceAssign ws i j
              [String.join (Prism.pySlice ws i j)]).length
              = i + 1 + (ws.length - j) := by
            rw [pySpliceAssign_length _ _ _ _ (by omega)]
            simp
          split
          · split
            · refine ih _ _ j ?_
              have hb := pySpliceAssign_length_le
                (Prism.pySpliceAssign ws i j [String.join (Prism.pySlice ws i j)])
                (Prism.pySlice
                  (Prism.pySpliceAssign orig i j [String.join (Prism.pySlice orig i j)])
                  i j) i j
              have hs := pySlice_length_le
                (Prism.pySpliceAssign orig i j [String.join (Prism.pySlice orig i j)])
                i j
              rw [hlen1] at hb
              omega
            · refine ih _ _ j ?_
              rw [hlen1]
              omega
          · refine ih _ _ j ?_
            rw [hlen1]
            omega
        · have hjeq : i + 1 = j := by simpa using hJ
          simp only [if_neg hJ]
          split
          · split
            · refine ih _ _ j ?_
              have hb := pySpliceAssign_length_le ws (Prism.pySlice orig i j) i j
              have hs := pySlice_length_le orig i j
              omega
            · refine ih _ _ j ?_
              omega
          · refine ih _ _ j ?_
            omega

/-- C10: `parse_numbers_in_word_list` terminates on every finite token
list and every setting of the options, even though the
arithmetic-fusion step moves the scan index backwards and elements are
spliced in and out of the list during the scan: the fuel bound
`3·len + 1` always suffices, so the fueled embedding never runs out. -/
theorem c10_parser_terminates (ws : List String) (useSep noSuffix : Bool)
    (minValue : Option Nat) :
    (Prism.fwtd.parseNumbersInWordList (3 * ws.length + 1) ws useSep minValue
      noSuffix).isSome := by
  unfold Prism.fwtd.parseNumbersInWordList
  have h1 : (Prism.fwtd.pass1Loop useSep noSuffix (3 * ws.length + 1)
      ws 0 none).isSome := by
    refine pass1Loop_terminates useSep noSuffix _ ws 0 none (by omega) ?_
    have hc := List.countP_le_length (p := Prism.fwtd.validDigitWord) (l := ws)
    simp only [List.drop_zero]
    omega
  obtain ⟨ws1, hws1⟩ := Option.isSome_iff_exists.mp h1
  rw [hws1]
  show (Prism.fwtd.pass2Loop minValue (3 * ws.length + 1) ws1 ws 0).isSome
  have hlen := pass1Loop_length_le useSep noSuffix (3 * ws.length + 1)
    ws 0 none ws1 hws1
  exact pass2Loop_terminates minValue _ ws1 ws 0 (by omega)
